import Mathlib

/-!
# Segment cost by cumulative sums (`effEval.cpp`)

A shallow embedding of `Cpp_getCumsum` and of the class `Cost` with its two
evaluators `Cpp_Eval` and `Cpp_effEval`, followed by the verification of their
contracts.

Modelling conventions.

* Matrix entries are exact rationals; a `double` that is the result of a
  division is a `Dbl`, which keeps the IEEE outcomes of dividing by zero
  (`nan`, `pinf`, `ninf`) apart from the finite values.
* An `arma::mat` is its two dimensions and its element accessor; a row vector
  is its length and its element accessor.  Entries outside the dimensions are
  never read by the embedded code.
* `row(i)` is Armadillo's checked access: an index outside `0 .. n_rows-1`
  aborts with `Err.indexOutOfBounds`; elementwise arithmetic on two vectors of
  different lengths aborts with `Err.incompatibleDims`.
* The C `int` counters are unbounded integers: row counts are taken to fit a C
  `int` with room for `nr + 1`.
* `std::pow(arma::norm(v, 2), 2)` is the sum of the squares of the entries
  of `v`, its value in exact arithmetic.

The definitions without a suffix are the program in exact arithmetic.  The
definitions whose name ends in `64` are the same program with every operation
rounded to binary64 (`F64.rnd`: round to nearest, ties to even, gradual
underflow; `F64.sqrt`: the correctly rounded square root; magnitudes are taken
to stay below `2 ^ 1024`).  They are evaluated on small matrices, to show where
a statement that holds in exact arithmetic fails in double precision.
-/

namespace Ruptures

/-- Errors the Armadillo primitives used by the source can abort with. -/
inductive Err where
  | indexOutOfBounds
  | incompatibleDims
  deriving DecidableEq, Repr

/-- A `double` produced by a division: a finite value, or one of the IEEE
results of a division by zero. -/
inductive Dbl where
  | fin (q : ℚ)
  | pinf
  | ninf
  | nan
  deriving DecidableEq

namespace Dbl

/-- IEEE addition. -/
def add : Dbl → Dbl → Dbl
  | fin a, fin b => fin (a + b)
  | nan, _ => nan
  | _, nan => nan
  | pinf, ninf => nan
  | ninf, pinf => nan
  | pinf, _ => pinf
  | _, pinf => pinf
  | ninf, _ => ninf
  | _, ninf => ninf

/-- IEEE negation. -/
def neg : Dbl → Dbl
  | fin a => fin (-a)
  | pinf => ninf
  | ninf => pinf
  | nan => nan

/-- IEEE subtraction. -/
def sub (a b : Dbl) : Dbl := add a (neg b)

/-- The square `std::pow(x, 2)`. -/
def sq : Dbl → Dbl
  | fin a => fin (a * a)
  | pinf => pinf
  | ninf => pinf
  | nan => nan

/-- Division of a finite `double` by an `int` converted to `double`. -/
def divInt (x : ℚ) (n : Int) : Dbl :=
  if n = 0 then
    if x = 0 then nan else if 0 < x then pinf else ninf
  else fin (x / (n : ℚ))

end Dbl

/-- A row vector (`arma::rowvec`, or a row view of a matrix). -/
structure RowVec (α : Type) where
  n_elem : Nat
  mem : Nat → α

/-- An `arma::mat`. -/
structure Mat where
  n_rows : Nat
  n_cols : Nat
  mem : Nat → Nat → ℚ

/-- Left-to-right accumulation over the first `k` entries of a vector. -/
def accuTo {α β : Type} (f : β → α → β) (init : β) (mem : Nat → α) : Nat → β
  | 0 => init
  | k + 1 => f (accuTo f init mem k) (mem k)

namespace RowVec

/-- The vector `arma::zeros<arma::rowvec>(nc)`. -/
def zeros (nc : Nat) : RowVec ℚ := ⟨nc, fun _ => 0⟩

/-- Elementwise binary operation; Armadillo rejects operands of different
lengths. -/
def zipWith {α β γ : Type} (f : α → β → γ) (a : RowVec α) (b : RowVec β) :
    Except Err (RowVec γ) :=
  if a.n_elem = b.n_elem then
    .ok ⟨a.n_elem, fun j => f (a.mem j) (b.mem j)⟩
  else .error .incompatibleDims

/-- Elementwise unary operation. -/
def map {α β : Type} (f : α → β) (a : RowVec α) : RowVec β :=
  ⟨a.n_elem, fun j => f (a.mem j)⟩

/-- The sum `a + b` of two rational vectors. -/
def add (a b : RowVec ℚ) : Except Err (RowVec ℚ) := zipWith (· + ·) a b

/-- The difference `a - b` of two rational vectors. -/
def sub (a b : RowVec ℚ) : Except Err (RowVec ℚ) := zipWith (· - ·) a b

/-- The quotient `v / ncr` of a vector by an `int`. -/
def divInt (v : RowVec ℚ) (ncr : Int) : RowVec Dbl := map (fun x => Dbl.divInt x ncr) v

/-- The sum `arma::sum(v)` of the entries. -/
def sum (v : RowVec ℚ) : ℚ := accuTo (fun s x => s + x) 0 v.mem v.n_elem

/-- The value `std::pow(arma::norm(v, 2), 2)` on a rational vector. -/
def normSq (v : RowVec ℚ) : ℚ := accuTo (fun s x => s + x * x) 0 v.mem v.n_elem

/-- The value `std::pow(arma::norm(v, 2), 2)` on a vector of doubles. -/
def normSqD (v : RowVec Dbl) : Dbl :=
  accuTo (fun s x => Dbl.add s (Dbl.sq x)) (Dbl.fin 0) v.mem v.n_elem

end RowVec

namespace Mat

/-- The matrix `arma::mat(nr, nc, arma::fill::zeros)`. -/
def zeros (nr nc : Nat) : Mat := ⟨nr, nc, fun _ _ => 0⟩

/-- Checked row access `X.row(i)`. -/
def row (X : Mat) (i : Int) : Except Err (RowVec ℚ) :=
  if 0 ≤ i ∧ i < (X.n_rows : Int) then
    .ok ⟨X.n_cols, fun j => X.mem i.toNat j⟩
  else .error .indexOutOfBounds

/-- Checked row assignment `X.row(i) = r`. -/
def setRow (X : Mat) (i : Int) (r : RowVec ℚ) : Except Err Mat :=
  if 0 ≤ i ∧ i < (X.n_rows : Int) then
    if r.n_elem = X.n_cols then
      .ok { X with mem := fun a b => if a = i.toNat then r.mem b else X.mem a b }
    else .error .incompatibleDims
  else .error .indexOutOfBounds

/-- Elementwise power `arma::pow(X, p)`. -/
def pow (X : Mat) (p : Nat) : Mat := { X with mem := fun i j => X.mem i j ^ p }

/-- Elementwise sum `A + B`; Armadillo rejects operands of different shapes. -/
def add (A B : Mat) : Except Err Mat :=
  if A.n_rows = B.n_rows ∧ A.n_cols = B.n_cols then
    .ok ⟨A.n_rows, A.n_cols, fun i j => A.mem i j + B.mem i j⟩
  else .error .incompatibleDims

/-- The matrix with the given rows and `nc` columns. -/
def ofRows (nc : Nat) (rows : List (List ℚ)) : Mat :=
  ⟨rows.length, nc, fun i j => (rows.getD i []).getD j 0⟩

/-- The rows of a matrix, as lists. -/
def toRows (X : Mat) : List (List ℚ) :=
  (List.range X.n_rows).map fun i => (List.range X.n_cols).map (X.mem i)

end Mat

/-- The loop `for (int i = start; ...; i++) body`, run for `k` iterations from
the state `s`; an abort of the body aborts the loop. -/
def forLoop {σ : Type} (body : Int → σ → Except Err σ) : Int → Nat → σ → Except Err σ
  | _, 0, s => .ok s
  | i, k + 1, s => body i s >>= forLoop body (i + 1) k

/-- The loop `for (int i = start; i < stop; i++) body`. -/
def forRange {σ : Type} (start stop : Int) (body : Int → σ → Except Err σ) (init : σ) :
    Except Err σ :=
  forLoop body start (stop - start).toNat init

/-- The body `CumsumMat.row(i+1) = CumsumMat.row(i) + X.row(i)` of the loop of
`Cpp_getCumsum`. -/
def cumsumBody (X : Mat) (i : Int) (CumsumMat : Mat) : Except Err Mat := do
  let prev ← CumsumMat.row i
  let xi ← X.row i
  let r ← prev.add xi
  CumsumMat.setRow (i + 1) r

/-- The function `Cpp_getCumsum`. -/
def Cpp_getCumsum (X : Mat) : Except Err Mat :=
  let nr : Int := X.n_rows
  let nc := X.n_cols
  let CumsumMat := Mat.zeros (X.n_rows + 1) nc
  forRange 0 nr (cumsumBody X) CumsumMat

/-- The class `Cost`: the matrix and its two cumulative-sum tables. -/
structure Cost where
  X : Mat
  CSX : Mat
  CSXsq : Mat

namespace Cost

/-- The constructor `Cost::Cost`. -/
def new (inputMat : Mat) : Except Err Cost := do
  let CSX ← Cpp_getCumsum inputMat
  let CSXsq ← Cpp_getCumsum (inputMat.pow 2)
  pure ⟨inputMat, CSX, CSXsq⟩

/-- The body `sumX = sumX + X.row(i)` of the first loop of `Cpp_Eval`. -/
def sumBody (X : Mat) (i : Int) (sumX : RowVec ℚ) : Except Err (RowVec ℚ) := do
  let xi ← X.row i
  sumX.add xi

/-- The body of the second loop of `Cpp_Eval`: the squared distance of row `i`
to `meanX` is added to `error`. -/
def errorBody (X : Mat) (meanX : RowVec Dbl) (i : Int) (error : Dbl) : Except Err Dbl := do
  let xi ← X.row i
  let diff ← RowVec.zipWith Dbl.sub (xi.map Dbl.fin) meanX
  let eucldistSq := diff.normSqD
  pure (Dbl.add error eucldistSq)

/-- The method `Cost::Cpp_Eval` (no precomputation). -/
def Cpp_Eval (c : Cost) (start end_ : Int) : Except Err Dbl := do
  let nc := c.X.n_cols
  let ncr : Int := end_ - start
  let sumX ← forRange start end_ (sumBody c.X) (RowVec.zeros nc)
  let meanX : RowVec Dbl := sumX.divInt ncr
  forRange start end_ (errorBody c.X meanX) (Dbl.fin 0)

/-- The method `Cost::Cpp_effEval` (uses the precomputed tables). -/
def Cpp_effEval (c : Cost) (start end_ : Int) : Except Err Dbl := do
  let ncr : Int := end_ - start
  let qe ← c.CSXsq.row end_
  let qs ← c.CSXsq.row start
  let errsumXsq := (← qe.sub qs).sum
  let ce ← c.CSX.row end_
  let cs ← c.CSX.row start
  let sqerrsumX := (← ce.sub cs).normSq
  pure (Dbl.sub (Dbl.fin errsumXsq) (Dbl.divInt sqerrsumX ncr))

end Cost

/-- The matrix whose row `i` is row `p i` of `M`. -/
def Mat.permuteRows (M : Mat) (p : Nat → Nat) : Mat := { M with mem := fun i j => M.mem (p i) j }

/-- The matrix obtained by adding the vector `v` to every row of `M`. -/
def Mat.shiftRows (M : Mat) (v : RowVec ℚ) : Mat :=
  { M with mem := fun i j => M.mem i j + v.mem j }

/-- The mean row of a segment as the specification words it: the column-wise
sum over rows `s .. e-1` divided by `e - s`. -/
def specMeanRow (M : Mat) (s e j : Nat) : ℚ :=
  (∑ i in Finset.Ico s e, M.mem i j) / ((e : ℚ) - (s : ℚ))

/-- The reference cost as the specification words it: the sum over the rows
`s .. e-1` and over all columns of the squared deviation from the mean row. -/
def specNaiveCost (M : Mat) (s e : Nat) : ℚ :=
  ∑ i in Finset.Ico s e, ∑ j in Finset.range M.n_cols, (M.mem i j - specMeanRow M s e j) ^ 2

/-- The example matrix `[[1],[2],[3],[4]]`. -/
def exampleM : Mat := Mat.ofRows 1 [[1], [2], [3], [4]]

/-! ## The same program in double precision -/

namespace F64

/-- The power `2 ^ k` for an integer exponent. -/
def pow2 (k : Int) : ℚ :=
  if 0 ≤ k then ((2 ^ k.toNat : Nat) : ℚ) else 1 / ((2 ^ (-k).toNat : Nat) : ℚ)

/-- The number of halvings that bring `n` below `2`, at most `fuel` of them. -/
def log2Aux : Nat → Nat → Nat
  | 0, _ => 0
  | fuel + 1, n => if n < 2 then 0 else log2Aux fuel (n / 2) + 1

/-- The binary logarithm `⌊log₂ n⌋` of a positive natural number. -/
def log2 (n : Nat) : Nat := log2Aux n n

/-- The binary exponent `⌊log₂ |a|⌋` of a nonzero rational. -/
def ilog2 (a : ℚ) : Int :=
  let k : Int := (log2 a.num.natAbs : Int) - (log2 a.den : Int)
  if pow2 k ≤ |a| then k else k - 1

/-- The integer nearest to `q ≥ 0`, a tie going to the even neighbour. -/
def roundEven (q : ℚ) : Int :=
  let m : Int := q.num / (q.den : Int)
  let r : ℚ := q - (m : ℚ)
  if r < 1 / 2 then m else if 1 / 2 < r then m + 1 else if m % 2 = 0 then m else m + 1

/-- Rounding to the nearest binary64 number, ties to even, with gradual
underflow; the magnitude is taken to stay below `2 ^ 1024`. -/
def rnd (x : ℚ) : ℚ :=
  if x = 0 then 0
  else
    let e : Int := max (ilog2 x - 52) (-1074)
    let m : Int := roundEven (|x| / pow2 e)
    if x < 0 then -((m : ℚ) * pow2 e) else (m : ℚ) * pow2 e

/-- The integer square root, found bit by bit from bit `k - 1` downwards. -/
def isqrtBits (n : Nat) : Nat → Nat → Nat
  | 0, acc => acc
  | k + 1, acc => if (acc + 2 ^ k) * (acc + 2 ^ k) ≤ n then isqrtBits n k (acc + 2 ^ k)
      else isqrtBits n k acc

/-- The integer square root `⌊√n⌋`. -/
def isqrt (n : Nat) : Nat := isqrtBits n (log2 n / 2 + 1) 0

/-- The correctly rounded square root `std::sqrt` of a non-negative binary64
number. -/
def sqrt (x : ℚ) : ℚ :=
  if x ≤ 0 then 0
  else
    let e : Int := max (ilog2 x / 2 - 52) (-1074)
    let t : ℚ := x / (pow2 e * pow2 e)
    let m : Nat := isqrt (t.num / (t.den : Int)).toNat
    let h : ℚ := (m : ℚ) + 1 / 2
    let m2 : Nat := if t < h * h then m else if h * h < t then m + 1
      else if m % 2 = 0 then m else m + 1
    (m2 : ℚ) * pow2 e

end F64


namespace Dbl

/-- Rounding of a `double` result to binary64; the non-finite values stay. -/
def rnd : Dbl → Dbl
  | fin q => fin (F64.rnd q)
  | pinf => pinf
  | ninf => ninf
  | nan => nan

/-- The sum of two doubles, in binary64. -/
def add64 (a b : Dbl) : Dbl := rnd (add a b)

/-- The difference of two doubles, in binary64. -/
def sub64 (a b : Dbl) : Dbl := rnd (sub a b)

/-- The square `std::pow(x, 2)`, in binary64. -/
def sq64 (x : Dbl) : Dbl := rnd (sq x)

/-- The square root `std::sqrt`, in binary64. -/
def sqrt64 : Dbl → Dbl
  | fin q => if q < 0 then nan else fin (F64.sqrt q)
  | pinf => pinf
  | ninf => nan
  | nan => nan

/-- The quotient of a finite `double` by an `int`, in binary64. -/
def divInt64 (x : ℚ) (n : Int) : Dbl := rnd (divInt x n)

end Dbl

namespace RowVec

/-- The entries of a vector, as a list. -/
def toList {α : Type} (v : RowVec α) : List α := (List.range v.n_elem).map v.mem

/-- The sum `a + b` of two vectors of doubles, in binary64. -/
def add64 (a b : RowVec ℚ) : Except Err (RowVec ℚ) := zipWith (fun x y => F64.rnd (x + y)) a b

/-- The difference `a - b` of two vectors of doubles, in binary64. -/
def sub64 (a b : RowVec ℚ) : Except Err (RowVec ℚ) := zipWith (fun x y => F64.rnd (x - y)) a b

/-- The quotient `v / ncr` of a vector by an `int`, in binary64. -/
def divInt64 (v : RowVec ℚ) (ncr : Int) : RowVec Dbl := map (fun x => Dbl.divInt64 x ncr) v

/-- The Euclidean norm `arma::norm(v, 2)` in binary64: the rounded squares are
accumulated in index order and the square root of the total is taken.  For a
vector of at most two entries every order of accumulation gives this value. -/
def norm64 (v : RowVec Dbl) : Dbl :=
  Dbl.sqrt64 (accuTo (fun s x => Dbl.add64 s (Dbl.sq64 x)) (Dbl.fin 0) v.mem v.n_elem)

end RowVec

/-- Elementwise power `arma::pow(X, p)`, in binary64. -/
def Mat.pow64 (X : Mat) (p : Nat) : Mat := { X with mem := fun i j => F64.rnd (X.mem i j ^ p) }

/-- Elementwise sum `A + B`, in binary64. -/
def Mat.add64 (A B : Mat) : Except Err Mat :=
  if A.n_rows = B.n_rows ∧ A.n_cols = B.n_cols then
    .ok ⟨A.n_rows, A.n_cols, fun i j => F64.rnd (A.mem i j + B.mem i j)⟩
  else .error .incompatibleDims

/-- The body of the loop of `Cpp_getCumsum`, in binary64. -/
def cumsumBody64 (X : Mat) (i : Int) (CumsumMat : Mat) : Except Err Mat := do
  let prev ← CumsumMat.row i
  let xi ← X.row i
  let r ← prev.add64 xi
  CumsumMat.setRow (i + 1) r

/-- The function `Cpp_getCumsum`, in binary64. -/
def Cpp_getCumsum64 (X : Mat) : Except Err Mat :=
  let nr : Int := X.n_rows
  let nc := X.n_cols
  let CumsumMat := Mat.zeros (X.n_rows + 1) nc
  forRange 0 nr (cumsumBody64 X) CumsumMat

namespace Cost

/-- The constructor `Cost::Cost`, in binary64. -/
def new64 (inputMat : Mat) : Except Err Cost := do
  let CSX ← Cpp_getCumsum64 inputMat
  let CSXsq ← Cpp_getCumsum64 (inputMat.pow64 2)
  pure ⟨inputMat, CSX, CSXsq⟩

/-- The body of the first loop of `Cpp_Eval`, in binary64. -/
def sumBody64 (X : Mat) (i : Int) (sumX : RowVec ℚ) : Except Err (RowVec ℚ) := do
  let xi ← X.row i
  sumX.add64 xi

/-- The body of the second loop of `Cpp_Eval`, in binary64. -/
def errorBody64 (X : Mat) (meanX : RowVec Dbl) (i : Int) (error : Dbl) : Except Err Dbl := do
  let xi ← X.row i
  let diff ← RowVec.zipWith Dbl.sub64 (xi.map Dbl.fin) meanX
  let eucldist := diff.norm64
  pure (Dbl.add64 error (Dbl.sq64 eucldist))

/-- The method `Cost::Cpp_Eval`, in binary64. -/
def Cpp_Eval64 (c : Cost) (start end_ : Int) : Except Err Dbl := do
  let nc := c.X.n_cols
  let ncr : Int := end_ - start
  let sumX ← forRange start end_ (sumBody64 c.X) (RowVec.zeros nc)
  let meanX : RowVec Dbl := sumX.divInt64 ncr
  forRange start end_ (errorBody64 c.X meanX) (Dbl.fin 0)

/-- The difference `CSX.row(end) - CSX.row(start)` formed by `Cpp_effEval`, in
binary64. -/
def sumVec64 (c : Cost) (start end_ : Int) : Except Err (RowVec ℚ) := do
  let ce ← c.CSX.row end_
  let cs ← c.CSX.row start
  ce.sub64 cs

end Cost

/-! ## Loops and accumulations -/

open Finset

theorem forLoop_inv {σ : Type} (body : Int → σ → Except Err σ) (k : Nat) :
    ∀ (P : Nat → σ → Prop) (start : Int) (s : σ),
      (∀ m t, m < k → P m t → ∃ t', body (start + (m : Int)) t = .ok t' ∧ P (m + 1) t') →
      P 0 s → ∃ s', forLoop body start k s = .ok s' ∧ P k s' := by
  induction k with
  | zero => intro P start s _ h0; exact ⟨s, rfl, h0⟩
  | succ k ih =>
    intro P start s hstep h0
    obtain ⟨s1, hb, h1⟩ := hstep 0 s (Nat.succ_pos k) h0
    simp only [Nat.cast_zero, add_zero] at hb
    obtain ⟨s2, hl, h2⟩ := ih (fun m t => P (m + 1) t) (start + 1) s1
      (fun m t hm hP => by
        obtain ⟨t', ht, hP'⟩ := hstep (m + 1) t (Nat.succ_lt_succ hm) hP
        refine ⟨t', ?_, hP'⟩
        rw [← ht]; congr 1; push_cast; ring) h1
    refine ⟨s2, ?_, h2⟩
    simp only [forLoop, hb]
    exact hl

theorem accuTo_sum (g : ℚ → ℚ) (mem : Nat → ℚ) (k : Nat) :
    accuTo (fun s x => s + g x) 0 mem k = ∑ j in range k, g (mem j) := by
  induction k with
  | zero => rfl
  | succ k ih => simp only [accuTo, ih, sum_range_succ]

theorem cumsumBody_ok (X C : Mat) (m : Nat) (hm : m < X.n_rows)
    (hr : C.n_rows = X.n_rows + 1) (hc : C.n_cols = X.n_cols) :
    cumsumBody X (m : Int) C =
      .ok { C with mem := fun a b => if a = m + 1 then C.mem m b + X.mem m b else C.mem a b } := by
  have h1 : (0 : Int) ≤ (m : Int) ∧ (m : Int) < (C.n_rows : Int) := by
    rw [hr]; constructor <;> omega
  have h2 : (0 : Int) ≤ (m : Int) ∧ (m : Int) < (X.n_rows : Int) := by
    constructor <;> omega
  have h3 : (0 : Int) ≤ (m : Int) + 1 ∧ (m : Int) + 1 < (C.n_rows : Int) := by
    rw [hr]; constructor <;> omega
  have e2 : ((m : Int) + 1).toNat = m + 1 := by omega
  simp only [cumsumBody, Mat.row, Mat.setRow, RowVec.add, RowVec.zipWith, h1, h2, h3, hc,
    and_self, if_true, bind, Except.bind, Int.toNat_ofNat, e2]

theorem getCumsum_spec (X : Mat) :
    ∃ C, Cpp_getCumsum X = .ok C ∧ C.n_rows = X.n_rows + 1 ∧ C.n_cols = X.n_cols ∧
      ∀ k, k ≤ X.n_rows → ∀ j, C.mem k j = ∑ i in range k, X.mem i j := by
  obtain ⟨C, hC, hr, hc, hpre, -⟩ := forLoop_inv (cumsumBody X) X.n_rows
    (fun m C => C.n_rows = X.n_rows + 1 ∧ C.n_cols = X.n_cols ∧
      (∀ k, k ≤ m → ∀ j, C.mem k j = ∑ i in range k, X.mem i j) ∧
      (∀ k, m < k → ∀ j, C.mem k j = 0))
    0 (Mat.zeros (X.n_rows + 1) X.n_cols)
    (by
      rintro m C hm ⟨hr, hc, hpre, hz⟩
      refine ⟨{ C with mem := fun a b => if a = m + 1 then C.mem m b + X.mem m b else C.mem a b },
        by rw [zero_add]; exact cumsumBody_ok X C m hm hr hc, hr, hc, ?_, ?_⟩
      · intro k hk j
        by_cases hkm : k = m + 1
        · subst hkm
          simp only [if_true, sum_range_succ]
          rw [hpre m le_rfl j]
        · simp only [hkm, if_false]
          exact hpre k (by omega) j
      · intro k hk j
        have : k ≠ m + 1 := by omega
        simp only [this, if_false]
        exact hz k (by omega) j)
    ⟨rfl, rfl, fun k hk j => by
        have : k = 0 := by omega
        subst this; simp [Mat.zeros], fun _ _ _ => rfl⟩
  refine ⟨C, ?_, hr, hc, hpre⟩
  simp only [Cpp_getCumsum, forRange]
  simpa using hC

theorem forRange_eq {σ : Type} (start stop : Int) (body : Int → σ → Except Err σ) (init : σ) :
    forRange start stop body init = forLoop body start (stop - start).toNat init := rfl

theorem forRange_empty {σ : Type} (start stop : Int) (body : Int → σ → Except Err σ) (init : σ)
    (h : stop ≤ start) : forRange start stop body init = .ok init := by
  have : (stop - start).toNat = 0 := by omega
  simp only [forRange, this, forLoop]

theorem sumBody_ok (X : Mat) (v : RowVec ℚ) (m : Nat) (hm : m < X.n_rows)
    (hv : v.n_elem = X.n_cols) :
    Cost.sumBody X (m : Int) v = .ok ⟨X.n_cols, fun j => v.mem j + X.mem m j⟩ := by
  have h2 : (0 : Int) ≤ (m : Int) ∧ (m : Int) < (X.n_rows : Int) := by
    constructor <;> omega
  simp only [Cost.sumBody, Mat.row, RowVec.add, RowVec.zipWith, h2, hv,
    and_self, if_true, bind, Except.bind, Int.toNat_ofNat]

theorem sumLoop_spec (X : Mat) (s e : Nat) (hse : s ≤ e) (hen : e ≤ X.n_rows) :
    forRange (s : Int) (e : Int) (Cost.sumBody X) (RowVec.zeros X.n_cols) =
      .ok ⟨X.n_cols, fun j => ∑ i in Ico s e, X.mem i j⟩ := by
  obtain ⟨v, hv, hP⟩ := forLoop_inv (Cost.sumBody X) (e - s)
    (fun m v => v = ⟨X.n_cols, fun j => ∑ i in Ico s (s + m), X.mem i j⟩)
    (s : Int) (RowVec.zeros X.n_cols)
    (by
      rintro m v hm rfl
      refine ⟨⟨X.n_cols, fun j => ∑ i in Ico s (s + (m + 1)), X.mem i j⟩, ?_, rfl⟩
      have := sumBody_ok X ⟨X.n_cols, fun j => ∑ i in Ico s (s + m), X.mem i j⟩ (s + m)
        (by omega) rfl
      rw [Nat.cast_add] at this
      rw [this]
      congr 2
      funext j
      rw [← Nat.add_assoc, sum_Ico_succ_top (Nat.le_add_right s m)])
    (by simp [RowVec.zeros])
  have hk : ((e : Int) - (s : Int)).toNat = e - s := by omega
  have hs : s + (e - s) = e := by omega
  rw [forRange_eq, hk, hv, hP, hs]

theorem Dbl.add_fin (a b : ℚ) : Dbl.add (Dbl.fin a) (Dbl.fin b) = Dbl.fin (a + b) := rfl

theorem Dbl.sub_fin (a b : ℚ) : Dbl.sub (Dbl.fin a) (Dbl.fin b) = Dbl.fin (a - b) := by
  simp only [Dbl.sub, Dbl.neg, Dbl.add, sub_eq_add_neg]

theorem Dbl.sq_fin (a : ℚ) : Dbl.sq (Dbl.fin a) = Dbl.fin (a * a) := rfl

theorem accuTo_fin (q : Nat → ℚ) (mem : Nat → Dbl) (h : ∀ j, mem j = Dbl.fin (q j)) (k : Nat) :
    accuTo (fun s x => Dbl.add s (Dbl.sq x)) (Dbl.fin 0) mem k =
      Dbl.fin (∑ j in range k, q j * q j) := by
  induction k with
  | zero => rfl
  | succ k ih => simp only [accuTo, ih, h, Dbl.sq_fin, Dbl.add_fin, sum_range_succ]

theorem errorBody_ok (X : Mat) (μ : Nat → ℚ) (a : ℚ) (m : Nat) (hm : m < X.n_rows) :
    Cost.errorBody X ⟨X.n_cols, fun j => Dbl.fin (μ j)⟩ (m : Int) (Dbl.fin a) =
      .ok (Dbl.fin (a + ∑ j in range X.n_cols, (X.mem m j - μ j) * (X.mem m j - μ j))) := by
  have h2 : (0 : Int) ≤ (m : Int) ∧ (m : Int) < (X.n_rows : Int) := by
    constructor <;> omega
  simp only [Cost.errorBody, Mat.row, RowVec.zipWith, RowVec.map, h2,
    and_self, if_true, bind, Except.bind, Int.toNat_ofNat, pure, Except.pure, RowVec.normSqD]
  rw [accuTo_fin (fun j => X.mem m j - μ j)]
  · rfl
  · intro j
    exact Dbl.sub_fin _ _

theorem errorLoop_spec (X : Mat) (μ : Nat → ℚ) (s e : Nat) (hse : s ≤ e) (hen : e ≤ X.n_rows) :
    forRange (s : Int) (e : Int) (Cost.errorBody X ⟨X.n_cols, fun j => Dbl.fin (μ j)⟩)
        (Dbl.fin 0) =
      .ok (Dbl.fin (∑ i in Ico s e, ∑ j in range X.n_cols,
        (X.mem i j - μ j) * (X.mem i j - μ j))) := by
  obtain ⟨v, hv, hP⟩ := forLoop_inv (Cost.errorBody X ⟨X.n_cols, fun j => Dbl.fin (μ j)⟩) (e - s)
    (fun m v => v = Dbl.fin (∑ i in Ico s (s + m), ∑ j in range X.n_cols,
        (X.mem i j - μ j) * (X.mem i j - μ j)))
    (s : Int) (Dbl.fin 0)
    (by
      rintro m v hm rfl
      refine ⟨_, ?_, rfl⟩
      have := errorBody_ok X μ (∑ i in Ico s (s + m), ∑ j in range X.n_cols,
        (X.mem i j - μ j) * (X.mem i j - μ j)) (s + m) (by omega)
      rw [Nat.cast_add] at this
      rw [this, ← Nat.add_assoc, sum_Ico_succ_top (Nat.le_add_right s m)])
    (by simp)
  have hk : ((e : Int) - (s : Int)).toNat = e - s := by omega
  have hs : s + (e - s) = e := by omega
  rw [forRange_eq, hk, hv, hP, hs]

/-- The value of `Cpp_Eval` on a valid segment, as a double sum. -/
theorem Cpp_Eval_spec (c : Cost) (s e : Nat) (hse : s < e) (hen : e ≤ c.X.n_rows) :
    c.Cpp_Eval (s : Int) (e : Int) =
      .ok (Dbl.fin (∑ i in Ico s e, ∑ j in range c.X.n_cols,
        (c.X.mem i j - (∑ k in Ico s e, c.X.mem k j) / (((e : Int) - (s : Int) : Int) : ℚ)) *
        (c.X.mem i j - (∑ k in Ico s e, c.X.mem k j) / (((e : Int) - (s : Int) : Int) : ℚ)))) := by
  have hne : ((e : Int) - (s : Int)) ≠ 0 := by omega
  simp only [Cost.Cpp_Eval, sumLoop_spec c.X s e hse.le hen, bind, Except.bind, RowVec.divInt,
    RowVec.map, Dbl.divInt, hne, if_false]
  exact errorLoop_spec c.X _ s e hse.le hen

theorem Cpp_Eval_empty (c : Cost) (start end_ : Int) (h : end_ ≤ start) :
    c.Cpp_Eval start end_ = .ok (Dbl.fin 0) := by
  simp only [Cost.Cpp_Eval, forRange_empty _ _ _ _ h, bind, Except.bind]

theorem Cpp_effEval_spec (c : Cost) (s e : Nat) (hs1 : s < c.CSX.n_rows) (he1 : e < c.CSX.n_rows)
    (hs2 : s < c.CSXsq.n_rows) (he2 : e < c.CSXsq.n_rows) :
    c.Cpp_effEval (s : Int) (e : Int) =
      .ok (Dbl.sub (Dbl.fin (∑ j in range c.CSXsq.n_cols, (c.CSXsq.mem e j - c.CSXsq.mem s j)))
        (Dbl.divInt (∑ j in range c.CSX.n_cols,
          (c.CSX.mem e j - c.CSX.mem s j) * (c.CSX.mem e j - c.CSX.mem s j))
          ((e : Int) - (s : Int)))) := by
  have a1 : (0 : Int) ≤ (s : Int) ∧ (s : Int) < (c.CSX.n_rows : Int) := by constructor <;> omega
  have a2 : (0 : Int) ≤ (e : Int) ∧ (e : Int) < (c.CSX.n_rows : Int) := by constructor <;> omega
  have a3 : (0 : Int) ≤ (s : Int) ∧ (s : Int) < (c.CSXsq.n_rows : Int) := by constructor <;> omega
  have a4 : (0 : Int) ≤ (e : Int) ∧ (e : Int) < (c.CSXsq.n_rows : Int) := by constructor <;> omega
  simp only [Cost.Cpp_effEval, Mat.row, RowVec.sub, RowVec.zipWith, a1, a2, a3, a4,
    and_self, if_true, bind, Except.bind, Int.toNat_ofNat, pure, Except.pure, RowVec.sum,
    RowVec.normSq]
  rw [accuTo_sum (fun x => x), accuTo_sum (fun x => x * x)]

theorem column_identity (f : ℕ → ℚ) (s e : ℕ) (hse : s < e) :
    ∑ i in Ico s e, (f i - (∑ k in Ico s e, f k) / ((e : ℚ) - s)) *
        (f i - (∑ k in Ico s e, f k) / ((e : ℚ) - s)) =
      ∑ i in Ico s e, f i ^ 2 - (∑ k in Ico s e, f k) * (∑ k in Ico s e, f k) / ((e : ℚ) - s) := by
  have hL : ((e : ℚ) - s) ≠ 0 := by
    have : (s : ℚ) < e := by exact_mod_cast hse
    linarith
  set S := ∑ k in Ico s e, f k with hS
  have hexp : ∀ i, (f i - S / ((e : ℚ) - s)) * (f i - S / ((e : ℚ) - s)) =
      f i ^ 2 - f i * (2 * S / ((e : ℚ) - s)) + S * S / (((e : ℚ) - s) * ((e : ℚ) - s)) := by
    intro i; field_simp; ring
  simp only [hexp, sum_add_distrib, sum_sub_distrib, ← sum_mul, sum_const, Nat.card_Ico,
    nsmul_eq_mul]
  rw [← hS, Nat.cast_sub hse.le]
  field_simp
  ring

theorem seg_identity (f : ℕ → ℕ → ℚ) (d s e : ℕ) (hse : s < e) :
    ∑ i in Ico s e, ∑ j in range d,
        (f i j - (∑ k in Ico s e, f k j) / ((e : ℚ) - s)) *
        (f i j - (∑ k in Ico s e, f k j) / ((e : ℚ) - s)) =
      ∑ j in range d, (∑ i in range e, f i j ^ 2 - ∑ i in range s, f i j ^ 2) -
        (∑ j in range d, (∑ i in range e, f i j - ∑ i in range s, f i j) *
          (∑ i in range e, f i j - ∑ i in range s, f i j)) / ((e : ℚ) - s) := by
  rw [sum_comm]
  have hcol : ∀ j ∈ range d,
      ∑ i in Ico s e, (f i j - (∑ k in Ico s e, f k j) / ((e : ℚ) - s)) *
        (f i j - (∑ k in Ico s e, f k j) / ((e : ℚ) - s)) =
      (∑ i in range e, f i j ^ 2 - ∑ i in range s, f i j ^ 2) -
        (∑ i in range e, f i j - ∑ i in range s, f i j) *
          (∑ i in range e, f i j - ∑ i in range s, f i j) / ((e : ℚ) - s) := by
    intro j _
    rw [column_identity (fun i => f i j) s e hse, sum_Ico_eq_sub (fun i => f i j ^ 2) hse.le,
      sum_Ico_eq_sub (fun i => f i j) hse.le]
  rw [sum_congr rfl hcol, sum_sub_distrib, ← sum_div]

theorem Cost_new_tables (M : Mat) :
    ∃ c, Cost.new M = .ok c ∧ c.X = M ∧
      Cpp_getCumsum M = .ok c.CSX ∧ Cpp_getCumsum (M.pow 2) = .ok c.CSXsq ∧
      c.CSX.n_rows = M.n_rows + 1 ∧ c.CSX.n_cols = M.n_cols ∧
      (∀ k, k ≤ M.n_rows → ∀ j, c.CSX.mem k j = ∑ i in range k, M.mem i j) ∧
      c.CSXsq.n_rows = M.n_rows + 1 ∧ c.CSXsq.n_cols = M.n_cols ∧
      (∀ k, k ≤ M.n_rows → ∀ j, c.CSXsq.mem k j = ∑ i in range k, M.mem i j ^ 2) := by
  obtain ⟨C1, h1, r1, c1, p1⟩ := getCumsum_spec M
  obtain ⟨C2, h2, r2, c2, p2⟩ := getCumsum_spec (M.pow 2)
  exact ⟨⟨M, C1, C2⟩, by simp only [Cost.new, h1, h2, bind, Except.bind, pure, Except.pure],
    rfl, h1, h2, r1, c1, p1, r2, c2, p2⟩

/-- The value of `Cpp_effEval` on a segment with a nonzero length inside the
table, in terms of the entries of the input matrix. -/
theorem effEval_value (M : Mat) (c : Cost) (s e : Nat) (hs : s ≤ M.n_rows) (he : e ≤ M.n_rows)
    (hne : s ≠ e)
    (r1 : c.CSX.n_rows = M.n_rows + 1) (c1 : c.CSX.n_cols = M.n_cols)
    (p1 : ∀ k, k ≤ M.n_rows → ∀ j, c.CSX.mem k j = ∑ i in range k, M.mem i j)
    (r2 : c.CSXsq.n_rows = M.n_rows + 1) (c2 : c.CSXsq.n_cols = M.n_cols)
    (p2 : ∀ k, k ≤ M.n_rows → ∀ j, c.CSXsq.mem k j = ∑ i in range k, M.mem i j ^ 2) :
    c.Cpp_effEval (s : Int) (e : Int) =
      .ok (Dbl.fin (∑ j in range M.n_cols,
          (∑ i in range e, M.mem i j ^ 2 - ∑ i in range s, M.mem i j ^ 2) -
        (∑ j in range M.n_cols, (∑ i in range e, M.mem i j - ∑ i in range s, M.mem i j) *
          (∑ i in range e, M.mem i j - ∑ i in range s, M.mem i j)) / ((e : ℚ) - s))) := by
  have hz : ((e : Int) - (s : Int)) ≠ 0 := by omega
  rw [Cpp_effEval_spec c s e (by omega) (by omega) (by omega) (by omega)]
  simp only [c1, c2, p1 s hs, p1 e he, p2 s hs, p2 e he, Dbl.divInt, hz, if_false, Dbl.sub_fin,
    Int.cast_sub, Int.cast_natCast]

/-! ## Aborting runs -/

theorem forLoop_add {σ : Type} (body : Int → σ → Except Err σ) (a b : Nat) :
    ∀ (start : Int) (s : σ),
      forLoop body start (a + b) s =
        forLoop body start a s >>= forLoop body (start + (a : Int)) b := by
  induction a with
  | zero => intro start s; simp [forLoop, bind, Except.bind]
  | succ a ih =>
    intro start s
    have h : a + 1 + b = (a + b) + 1 := by omega
    rw [h]
    simp only [forLoop]
    cases hb : body start s with
    | error err => simp [bind, Except.bind]
    | ok t =>
      simp only [bind, Except.bind]
      have := ih (start + 1) t
      simp only [bind] at this
      rw [this]
      have e : start + 1 + (a : Int) = start + ((a + 1 : Nat) : Int) := by push_cast; ring
      rw [e]
      rfl

theorem forLoop_first_error {σ : Type} (body : Int → σ → Except Err σ) (i : Int) (k : Nat)
    (s : σ) (err : Err) (h : body i s = .error err) :
    forLoop body i (k + 1) s = .error err := by
  simp only [forLoop, h, bind, Except.bind]

theorem sumBody_error (X : Mat) (i : Int) (v : RowVec ℚ)
    (h : ¬(0 ≤ i ∧ i < (X.n_rows : Int))) :
    Cost.sumBody X i v = .error .indexOutOfBounds := by
  simp only [Cost.sumBody, Mat.row, h, if_false, bind, Except.bind]

/-- The first loop of `Cpp_Eval` aborts when the segment is nonempty and leaves
the rows of the matrix. -/
theorem sumLoop_error (X : Mat) (start end_ : Int) (hse : start < end_)
    (hout : start < 0 ∨ (X.n_rows : Int) < end_) :
    forRange start end_ (Cost.sumBody X) (RowVec.zeros X.n_cols) = .error .indexOutOfBounds := by
  by_cases hin : 0 ≤ start ∧ start < (X.n_rows : Int)
  · obtain ⟨h0, hn⟩ := hin
    have hend : (X.n_rows : Int) < end_ := by omega
    lift start to ℕ using h0
    have hsn : start ≤ X.n_rows := by omega
    obtain ⟨k, hk⟩ : ∃ k : Nat, (end_ - (start : Int)).toNat = (X.n_rows - start) + (k + 1) :=
      ⟨(end_ - (X.n_rows : Int)).toNat - 1, by omega⟩
    have h1 := sumLoop_spec X start X.n_rows hsn le_rfl
    have hk1 : ((X.n_rows : Int) - (start : Int)).toNat = X.n_rows - start := by omega
    rw [forRange_eq, hk1] at h1
    rw [forRange_eq, hk, forLoop_add, h1]
    have e : (start : Int) + ((X.n_rows - start : Nat) : Int) = (X.n_rows : Int) := by omega
    simp only [bind, Except.bind, e]
    exact forLoop_first_error _ _ _ _ _ (sumBody_error X _ _ (by omega))
  · obtain ⟨k, hk⟩ : ∃ k : Nat, (end_ - start).toNat = k + 1 :=
      ⟨(end_ - start).toNat - 1, by omega⟩
    rw [forRange_eq, hk]
    exact forLoop_first_error _ _ _ _ _ (sumBody_error X _ _ hin)

theorem Cpp_Eval_error (c : Cost) (start end_ : Int) (hse : start < end_)
    (hout : start < 0 ∨ (c.X.n_rows : Int) < end_) :
    c.Cpp_Eval start end_ = .error .indexOutOfBounds := by
  simp only [Cost.Cpp_Eval, sumLoop_error c.X start end_ hse hout, bind, Except.bind]

theorem Mat_row_error (X : Mat) (i : Int) (h : i < 0 ∨ (X.n_rows : Int) ≤ i) :
    X.row i = .error .indexOutOfBounds := by
  have : ¬(0 ≤ i ∧ i < (X.n_rows : Int)) := by omega
  simp only [Mat.row, this, if_false]

theorem Mat_row_ok (X : Mat) (i : Int) (h : 0 ≤ i ∧ i < (X.n_rows : Int)) :
    X.row i = .ok ⟨X.n_cols, fun j => X.mem i.toNat j⟩ := by
  simp only [Mat.row, h, and_self, if_true]

theorem Cpp_effEval_error (c : Cost) (start end_ : Int)
    (hout : start < 0 ∨ (c.CSXsq.n_rows : Int) ≤ start ∨ end_ < 0 ∨ (c.CSXsq.n_rows : Int) ≤ end_) :
    c.Cpp_effEval start end_ = .error .indexOutOfBounds := by
  by_cases he : end_ < 0 ∨ (c.CSXsq.n_rows : Int) ≤ end_
  · simp only [Cost.Cpp_effEval, Mat_row_error _ _ he, bind, Except.bind]
  · have hs : start < 0 ∨ (c.CSXsq.n_rows : Int) ≤ start := by omega
    have he' : 0 ≤ end_ ∧ end_ < (c.CSXsq.n_rows : Int) := by omega
    simp only [Cost.Cpp_effEval, Mat_row_error _ _ hs, Mat_row_ok _ _ he', bind, Except.bind]

/-- The efficient evaluator on a zero-length segment inside the table: the
quotient is `0 / 0`. -/
theorem effEval_zero_length (c : Cost) (s : Nat) (h1 : s < c.CSX.n_rows)
    (h2 : s < c.CSXsq.n_rows) :
    c.Cpp_effEval (s : Int) (s : Int) = .ok Dbl.nan := by
  rw [Cpp_effEval_spec c s s h1 h1 h2 h2]
  simp [Dbl.divInt, Dbl.sub, Dbl.neg, Dbl.add]

/-! ## Sums over a permuted segment -/

theorem sum_Ico_perm {β : Type} [AddCommMonoid β] (σ : Equiv.Perm ℕ) (s e : ℕ)
    (hfix : ∀ i : ℕ, ¬(s ≤ i ∧ i < e) → σ i = i) (g : ℕ → β) :
    ∑ i in Ico s e, g (σ i) = ∑ i in Ico s e, g i := by
  refine sum_equiv σ (fun i => ?_) (fun i _ => rfl)
  simp only [mem_Ico]
  constructor
  · intro hi
    by_contra hσ
    have h1 : σ (σ i) = σ i := hfix (σ i) hσ
    have h2 : σ i = i := σ.injective h1
    rw [h2] at hσ
    exact hσ hi
  · intro hσ
    by_contra hi
    rw [hfix i hi] at hσ
    exact hi hσ

/-! ## The reference cost -/

/-- The brute-force evaluator on a valid segment, as the reference cost. -/
theorem Eval_eq_specNaiveCost (c : Cost) (s e : Nat) (hse : s < e) (hen : e ≤ c.X.n_rows) :
    c.Cpp_Eval (s : Int) (e : Int) = .ok (Dbl.fin (specNaiveCost c.X s e)) := by
  rw [Cpp_Eval_spec c s e hse hen]
  simp only [specNaiveCost, specMeanRow, Int.cast_sub, Int.cast_natCast, sq]

/-- The efficient evaluator on a valid segment, as the reference cost. -/
theorem effEval_eq_specNaiveCost (M : Mat) (c : Cost) (s e : Nat) (hse : s < e)
    (he : e ≤ M.n_rows)
    (r1 : c.CSX.n_rows = M.n_rows + 1) (c1 : c.CSX.n_cols = M.n_cols)
    (p1 : ∀ k, k ≤ M.n_rows → ∀ j, c.CSX.mem k j = ∑ i in range k, M.mem i j)
    (r2 : c.CSXsq.n_rows = M.n_rows + 1) (c2 : c.CSXsq.n_cols = M.n_cols)
    (p2 : ∀ k, k ≤ M.n_rows → ∀ j, c.CSXsq.mem k j = ∑ i in range k, M.mem i j ^ 2) :
    c.Cpp_effEval (s : Int) (e : Int) = .ok (Dbl.fin (specNaiveCost M s e)) := by
  rw [effEval_value M c s e (by omega) he (by omega) r1 c1 p1 r2 c2 p2,
    ← seg_identity _ _ s e hse]
  simp only [specNaiveCost, specMeanRow, sq]

theorem specNaiveCost_nonneg (M : Mat) (s e : Nat) : 0 ≤ specNaiveCost M s e :=
  sum_nonneg fun _ _ => sum_nonneg fun _ _ => sq_nonneg _

theorem split_term_le (a b p q : ℚ) (hp : 0 < p) (hq : 0 < q) :
    (a + b) * (a + b) / (p + q) ≤ a * a / p + b * b / q := by
  rw [div_add_div _ _ hp.ne' hq.ne', div_le_div_iff₀ (by positivity) (by positivity)]
  nlinarith [sq_nonneg (a * q - b * p)]

theorem split_sum_le (a b : ℕ → ℚ) (d : ℕ) (p q : ℚ) (hp : 0 < p) (hq : 0 < q) :
    (∑ j in range d, (a j + b j) * (a j + b j)) / (p + q) ≤
      (∑ j in range d, a j * a j) / p + (∑ j in range d, b j * b j) / q := by
  rw [sum_div, sum_div, sum_div, ← sum_add_distrib]
  exact sum_le_sum fun j _ => split_term_le (a j) (b j) p q hp hq

theorem specMeanRow_shift (M : Mat) (v : RowVec ℚ) (s e j : Nat) (hse : s < e) :
    specMeanRow (M.shiftRows v) s e j = specMeanRow M s e j + v.mem j := by
  have hL : ((e : ℚ) - s) ≠ 0 := by
    have : (s : ℚ) < e := by exact_mod_cast hse
    linarith
  simp only [specMeanRow, Mat.shiftRows, sum_add_distrib, sum_const, Nat.card_Ico, nsmul_eq_mul,
    Nat.cast_sub hse.le]
  field_simp
  ring

theorem specNaiveCost_shift (M : Mat) (v : RowVec ℚ) (s e : Nat) (hse : s < e) :
    specNaiveCost (M.shiftRows v) s e = specNaiveCost M s e := by
  simp only [specNaiveCost, specMeanRow_shift M v s e _ hse]
  refine sum_congr rfl fun i _ => sum_congr rfl fun j _ => ?_
  simp only [Mat.shiftRows]
  ring

theorem specMeanRow_const (M : Mat) (s e j : Nat) (hse : s < e)
    (h : ∀ i, s ≤ i → i < e → M.mem i j = M.mem s j) :
    specMeanRow M s e j = M.mem s j := by
  have hL : ((e : ℚ) - s) ≠ 0 := by
    have : (s : ℚ) < e := by exact_mod_cast hse
    linarith
  have hsum : ∑ i in Ico s e, M.mem i j = ∑ _i in Ico s e, M.mem s j :=
    sum_congr rfl fun i hi => h i (mem_Ico.mp hi).1 (mem_Ico.mp hi).2
  rw [specMeanRow, hsum, sum_const, Nat.card_Ico, nsmul_eq_mul, Nat.cast_sub hse.le]
  field_simp

theorem specNaiveCost_eq_zero_iff (M : Mat) (s e : Nat) (hse : s < e) :
    specNaiveCost M s e = 0 ↔
      ∀ i k, s ≤ i → i < e → s ≤ k → k < e → ∀ j, j < M.n_cols → M.mem i j = M.mem k j := by
  constructor
  · intro h0
    have hrow : ∀ i ∈ Ico s e,
        ∑ j in range M.n_cols, (M.mem i j - specMeanRow M s e j) ^ 2 = 0 :=
      (sum_eq_zero_iff_of_nonneg fun _ _ => sum_nonneg fun _ _ => sq_nonneg _).mp h0
    have hent : ∀ i, s ≤ i → i < e → ∀ j, j < M.n_cols → M.mem i j = specMeanRow M s e j := by
      intro i h1 h2 j hj
      have := (sum_eq_zero_iff_of_nonneg fun _ _ => sq_nonneg _).mp
        (hrow i (mem_Ico.mpr ⟨h1, h2⟩)) j (mem_range.mpr hj)
      have h3 : M.mem i j - specMeanRow M s e j = 0 := pow_eq_zero_iff (two_ne_zero) |>.mp this
      linarith
    intro i k hi1 hi2 hk1 hk2 j hj
    rw [hent i hi1 hi2 j hj, hent k hk1 hk2 j hj]
  · intro h
    refine sum_eq_zero fun i hi => sum_eq_zero fun j hj => ?_
    have hj' := mem_range.mp hj
    have hi' := mem_Ico.mp hi
    rw [specMeanRow_const M s e j hse
      (fun i2 h1 h2 => h i2 s h1 h2 le_rfl hse j hj'),
      h i s hi'.1 hi'.2 le_rfl hse j hj', sub_self]
    exact zero_pow two_ne_zero

/-! ## Binary64 evaluation -/

/-- The double nearest to `1/10` is `0x3FB999999999999A`. -/
theorem F64.rnd_tenth : F64.rnd (1 / 10) = 3602879701896397 / 36028797018963968 := by decide!

/-- Integers up to `2 ^ 53` are doubles; `2 ^ 53 + 1` is a tie and goes to the
even neighbour `2 ^ 53`, and `2 ^ 53 + 3` goes to `2 ^ 53 + 4`. -/
theorem F64.rnd_integers :
    F64.rnd 3 = 3 ∧ F64.rnd (2 ^ 53) = 2 ^ 53 ∧ F64.rnd (2 ^ 53 + 1) = 2 ^ 53 ∧
      F64.rnd (2 ^ 53 + 3) = 2 ^ 53 + 4 ∧ F64.rnd (-(2 ^ 53) + 1) = -(2 ^ 53) + 1 := by decide!

/-- The double `std::sqrt(2.0)` is `0x3FF6A09E667F3BCD`, and `√2` lies within half
a unit in the last place of it. -/
theorem F64.sqrt_two :
    F64.sqrt 2 = 6369051672525773 / 4503599627370496 ∧
      (6369051672525773 / 4503599627370496 - 1 / 2 ^ 53 : ℚ) ^ 2 < 2 ∧
      (2 : ℚ) < (6369051672525773 / 4503599627370496 + 1 / 2 ^ 53) ^ 2 := by
  refine ⟨by decide!, ?_, ?_⟩ <;> norm_num

/-! ## The claims -/

/-- C1: on every matrix and every segment with `0 ≤ s < e ≤ n`, the efficient
evaluator and the brute-force evaluator of `Cost(M)` both return, and return the
same finite value (exact arithmetic). -/
theorem C1_effEval_eq_Eval (M : Mat) (s e : Int) (hs : 0 ≤ s) (hse : s < e)
    (hen : e ≤ (M.n_rows : Int)) :
    ∃ c v, Cost.new M = .ok c ∧ c.Cpp_effEval s e = .ok (Dbl.fin v) ∧
      c.Cpp_Eval s e = .ok (Dbl.fin v) := by
  lift s to ℕ using hs
  lift e to ℕ using le_trans (Int.natCast_nonneg s) hse.le
  have hse' : s < e := by exact_mod_cast hse
  have hen' : e ≤ M.n_rows := by exact_mod_cast hen
  obtain ⟨c, hc, hX, -, -, r1, c1, p1, r2, c2, p2⟩ := Cost_new_tables M
  refine ⟨c, _, hc, effEval_value M c s e (by omega) hen' (by omega) r1 c1 p1 r2 c2 p2, ?_⟩
  rw [Cpp_Eval_spec c s e hse' (by rw [hX]; exact hen'), hX, ← seg_identity _ _ s e hse']
  simp only [Int.cast_sub, Int.cast_natCast]

/-- Witness for C1: the segment `[1, 3)` of the example matrix. -/
theorem C1_effEval_eq_Eval_witness :
    (0 : Int) ≤ 1 ∧ (1 : Int) < 3 ∧ (3 : Int) ≤ (exampleM.n_rows : Int) ∧
    ∃ c v, Cost.new exampleM = .ok c ∧ c.Cpp_effEval 1 3 = .ok (Dbl.fin v) ∧
      c.Cpp_Eval 1 3 = .ok (Dbl.fin v) :=
  ⟨by decide, by decide, by decide,
    C1_effEval_eq_Eval exampleM 1 3 (by decide) (by decide) (by decide)⟩

/-- C2: `Cpp_getCumsum` returns a matrix with `n + 1` rows and `d` columns whose
row 0 is zero and whose row `i + 1` is row `i` plus row `i` of the input, for every
`i` in `0 .. n-1`. -/
theorem C2_getCumsum_recurrence (M : Mat) :
    ∃ CS, Cpp_getCumsum M = .ok CS ∧ CS.n_rows = M.n_rows + 1 ∧ CS.n_cols = M.n_cols ∧
      (∀ j, j < M.n_cols → CS.mem 0 j = 0) ∧
      ∀ i, i < M.n_rows → ∀ j, j < M.n_cols → CS.mem (i + 1) j = CS.mem i j + M.mem i j := by
  obtain ⟨CS, h, hr, hc, hp⟩ := getCumsum_spec M
  refine ⟨CS, h, hr, hc, ?_, ?_⟩
  · intro j _
    rw [hp 0 (Nat.zero_le _) j, sum_range_zero]
  · intro i hi j _
    rw [hp (i + 1) hi j, hp i hi.le j, sum_range_succ]

/-- C4, counterexample: on the example matrix the efficient evaluator called on
the zero-length segment `(2, 2)` raises nothing and returns NaN. -/
theorem C4_counterexample :
    (Cost.new exampleM >>= fun c => c.Cpp_effEval 2 2) = .ok Dbl.nan ∧
      ∀ err, (Cost.new exampleM >>= fun c => c.Cpp_effEval 2 2) ≠ .error err := by
  obtain ⟨c, hc, -, -, -, r1, -, -, r2, -, -⟩ := Cost_new_tables exampleM
  have h : (Cost.new exampleM >>= fun c => c.Cpp_effEval 2 2) = .ok Dbl.nan := by
    rw [hc]
    exact effEval_zero_length c 2 (by rw [r1]; decide) (by rw [r2]; decide)
  refine ⟨h, fun err => ?_⟩
  rw [h]
  exact fun h => nomatch h

/-- C4, as amended: for an index `s` with `0 ≤ s ≤ n` the efficient evaluator
called on the zero-length segment `(s, s)` raises no error, performs the division
`0 / 0` and returns NaN; for `s` outside `0 .. n` it aborts through the bounds
check of the row access only. -/
theorem C4_effEval_zero_length (M : Mat) (s : Int) :
    ∃ c, Cost.new M = .ok c ∧
      (0 ≤ s ∧ s ≤ (M.n_rows : Int) → c.Cpp_effEval s s = .ok Dbl.nan) ∧
      (s < 0 ∨ (M.n_rows : Int) < s → c.Cpp_effEval s s = .error .indexOutOfBounds) := by
  obtain ⟨c, hc, -, -, -, r1, -, -, r2, -, -⟩ := Cost_new_tables M
  refine ⟨c, hc, ?_, ?_⟩
  · rintro ⟨h0, hn⟩
    lift s to ℕ using h0
    exact effEval_zero_length c s (by omega) (by omega)
  · intro h
    exact Cpp_effEval_error c s s (by omega)

/-- C5, counterexample: on the example matrix with `start = 3 ≥ end = 1` the
brute-force evaluator raises nothing and returns `0`, and the efficient evaluator
raises nothing and returns `-1/2`. -/
theorem C5_counterexample :
    (Cost.new exampleM >>= fun c => c.Cpp_Eval 3 1) = .ok (Dbl.fin 0) ∧
      (Cost.new exampleM >>= fun c => c.Cpp_effEval 3 1) = .ok (Dbl.fin (-1 / 2)) := by
  obtain ⟨c, hc, -, -, -, r1, c1, p1, r2, c2, p2⟩ := Cost_new_tables exampleM
  rw [hc]
  refine ⟨Cpp_Eval_empty c 3 1 (by decide), ?_⟩
  have := effEval_value exampleM c 3 1 (by decide) (by decide) (by decide) r1 c1 p1 r2 c2 p2
  simp only [bind, Except.bind]
  rw [show (3 : Int) = ((3 : Nat) : Int) from rfl, show (1 : Int) = ((1 : Nat) : Int) from rfl,
    this]
  simp only [exampleM, Mat.ofRows, sum_range_succ, sum_range_zero]
  norm_num

/-- C5, as amended: a nonempty segment that leaves the rows of the matrix makes
both evaluators abort with the index-out-of-bounds error of the row access, and
the efficient evaluator aborts that way whenever a bound lies outside `0 .. n`;
with `start ≥ end` the brute-force evaluator raises nothing and returns `0`, and
with `0 ≤ end ≤ start ≤ n` the efficient evaluator raises nothing, returning NaN
when `start = end` and a finite value when `end < start`. -/
theorem C5_invalid_bounds (M : Mat) (start end_ : Int) :
    ∃ c, Cost.new M = .ok c ∧
      (start < end_ ∧ (start < 0 ∨ (M.n_rows : Int) < end_) →
        c.Cpp_Eval start end_ = .error .indexOutOfBounds ∧
        c.Cpp_effEval start end_ = .error .indexOutOfBounds) ∧
      (start < 0 ∨ (M.n_rows : Int) < start ∨ end_ < 0 ∨ (M.n_rows : Int) < end_ →
        c.Cpp_effEval start end_ = .error .indexOutOfBounds) ∧
      (end_ ≤ start → c.Cpp_Eval start end_ = .ok (Dbl.fin 0)) ∧
      (0 ≤ end_ ∧ end_ = start ∧ start ≤ (M.n_rows : Int) →
        c.Cpp_effEval start end_ = .ok Dbl.nan) ∧
      (0 ≤ end_ ∧ end_ < start ∧ start ≤ (M.n_rows : Int) →
        ∃ v, c.Cpp_effEval start end_ = .ok (Dbl.fin v)) := by
  obtain ⟨c, hc, hX, -, -, r1, c1, p1, r2, c2, p2⟩ := Cost_new_tables M
  refine ⟨c, hc, ?_, ?_, ?_, ?_, ?_⟩
  · rintro ⟨hse, hout⟩
    exact ⟨Cpp_Eval_error c start end_ hse (by rw [hX]; exact hout),
      Cpp_effEval_error c start end_ (by omega)⟩
  · intro hout
    exact Cpp_effEval_error c start end_ (by omega)
  · exact Cpp_Eval_empty c start end_
  · rintro ⟨h0, rfl, hn⟩
    lift end_ to ℕ using h0
    exact effEval_zero_length c end_ (by omega) (by omega)
  · rintro ⟨h0, hlt, hn⟩
    lift end_ to ℕ using h0
    lift start to ℕ using le_trans (Int.natCast_nonneg end_) hlt.le
    exact ⟨_, effEval_value M c start end_ (by omega) (by omega) (by omega) r1 c1 p1 r2 c2 p2⟩

/-- C6, counterexample: on `[[0,0],[2,2]]` and the segment `(0, 2)` the
brute-force evaluator, run in double precision, returns
`4503599627370497 / 2^50 = 4.000000000000001`, whereas the reference cost is
`4`: each row is at distance `√2` of the mean row `(1, 1)`, and the square of
the double `√2` is not `2`. -/
theorem C6_counterexample :
    (Cost.new64 (Mat.ofRows 2 [[0, 0], [2, 2]]) >>= fun c => c.Cpp_Eval64 0 2).toOption =
        some (Dbl.fin (4503599627370497 / 1125899906842624)) ∧
      specNaiveCost (Mat.ofRows 2 [[0, 0], [2, 2]]) 0 2 = 4 ∧
      (4503599627370497 / 1125899906842624 : ℚ) ≠ 4 := by decide!

/-- C6, as amended: in exact arithmetic, on every valid segment the brute-force
evaluator returns the reference cost: the sum over the rows of the segment and
over all columns of the squared deviation from the column mean of the segment. -/
theorem C6_Eval_eq_reference (M : Mat) (start end_ : Int) (hs : 0 ≤ start) (hse : start < end_)
    (hen : end_ ≤ (M.n_rows : Int)) :
    ∃ c, Cost.new M = .ok c ∧
      c.Cpp_Eval start end_ = .ok (Dbl.fin (specNaiveCost M start.toNat end_.toNat)) := by
  lift start to ℕ using hs
  lift end_ to ℕ using le_trans (Int.natCast_nonneg start) hse.le
  have hse' : start < end_ := by exact_mod_cast hse
  have hen' : end_ ≤ M.n_rows := by exact_mod_cast hen
  obtain ⟨c, hc, hX, -⟩ := Cost_new_tables M
  refine ⟨c, hc, ?_⟩
  rw [Cpp_Eval_spec c start end_ hse' (by rw [hX]; exact hen'), hX]
  simp only [specNaiveCost, specMeanRow, Int.toNat_ofNat, Int.cast_sub, Int.cast_natCast, sq]

/-- Witness for C6: the segment `[0, 4)` of the example matrix. -/
theorem C6_Eval_eq_reference_witness :
    (0 : Int) ≤ 0 ∧ (0 : Int) < 4 ∧ (4 : Int) ≤ (exampleM.n_rows : Int) ∧
    ∃ c, Cost.new exampleM = .ok c ∧
      c.Cpp_Eval 0 4 = .ok (Dbl.fin (specNaiveCost exampleM (0 : Int).toNat (4 : Int).toNat)) :=
  ⟨by decide, by decide, by decide,
    C6_Eval_eq_reference exampleM 0 4 (by decide) (by decide) (by decide)⟩

/-- C7: on a one-row segment `[i, i+1)` with `0 ≤ i < n` the efficient evaluator
returns exactly `0`. -/
theorem C7_effEval_singleton (M : Mat) (i : Int) (h0 : 0 ≤ i) (hn : i < (M.n_rows : Int)) :
    ∃ c, Cost.new M = .ok c ∧ c.Cpp_effEval i (i + 1) = .ok (Dbl.fin 0) := by
  lift i to ℕ using h0
  have hn' : i < M.n_rows := by exact_mod_cast hn
  obtain ⟨c, hc, -, -, -, r1, c1, p1, r2, c2, p2⟩ := Cost_new_tables M
  refine ⟨c, hc, ?_⟩
  have := effEval_value M c i (i + 1) hn'.le hn' (by omega) r1 c1 p1 r2 c2 p2
  rw [Nat.cast_add, Nat.cast_one] at this
  rw [this]
  congr 2
  simp only [sum_range_succ, add_sub_cancel_left, Nat.cast_add, Nat.cast_one, div_one, sq,
    sub_self]

/-- Witness for C7: row `2` of the example matrix. -/
theorem C7_effEval_singleton_witness :
    (0 : Int) ≤ 2 ∧ (2 : Int) < (exampleM.n_rows : Int) ∧
    ∃ c, Cost.new exampleM = .ok c ∧ c.Cpp_effEval 2 (2 + 1) = .ok (Dbl.fin 0) :=
  ⟨by decide, by decide, C7_effEval_singleton exampleM 2 (by decide) (by decide)⟩

/-- C8, counterexample: on `[[0],[1],[3]]` and the segment `(0, 3)` the
brute-force evaluator, run in double precision, returns
`5254199565265579 / 2^50 = 4.666666666666667`; with the rows `1` and `2`
exchanged it returns `2627099782632789 / 2^49 = 4.666666666666666`. -/
theorem C8_counterexample :
    (Cost.new64 (Mat.ofRows 1 [[0], [1], [3]]) >>= fun c => c.Cpp_Eval64 0 3).toOption =
        some (Dbl.fin (5254199565265579 / 1125899906842624)) ∧
      (Cost.new64 ((Mat.ofRows 1 [[0], [1], [3]]).permuteRows (Equiv.swap 1 2)) >>=
          fun c => c.Cpp_Eval64 0 3).toOption =
        some (Dbl.fin (2627099782632789 / 562949953421312)) ∧
      ((Mat.ofRows 1 [[0], [1], [3]]).permuteRows (Equiv.swap 1 2)).toRows = [[0], [3], [1]] ∧
      (5254199565265579 / 1125899906842624 : ℚ) ≠ 2627099782632789 / 562949953421312 := by
  decide!

/-- C8, as amended: in exact arithmetic, permuting the rows of a valid segment
among themselves, all other rows staying in place, leaves the value of the
brute-force evaluator on that segment unchanged. -/
theorem C8_Eval_permutation_invariant (M : Mat) (s e : Int) (p : Equiv.Perm ℕ)
    (hs : 0 ≤ s) (hse : s < e) (hen : e ≤ (M.n_rows : Int))
    (hfix : ∀ i : ℕ, ¬(s ≤ (i : Int) ∧ (i : Int) < e) → p i = i) :
    ∃ c c2 v, Cost.new M = .ok c ∧ Cost.new (M.permuteRows p) = .ok c2 ∧
      c.Cpp_Eval s e = .ok v ∧ c2.Cpp_Eval s e = .ok v := by
  lift s to ℕ using hs
  lift e to ℕ using le_trans (Int.natCast_nonneg s) hse.le
  have hse' : s < e := by exact_mod_cast hse
  have hen' : e ≤ M.n_rows := by exact_mod_cast hen
  have hfix' : ∀ i : ℕ, ¬(s ≤ i ∧ i < e) → p i = i := by
    intro i hi
    exact hfix i (by omega)
  obtain ⟨c, hc, hX, -⟩ := Cost_new_tables M
  obtain ⟨c2, hc2, hX2, -⟩ := Cost_new_tables (M.permuteRows p)
  refine ⟨c, c2, _, hc, hc2, Cpp_Eval_spec c s e hse' (by rw [hX]; exact hen'), ?_⟩
  rw [Cpp_Eval_spec c2 s e hse' (by rw [hX2]; exact hen'), hX, hX2]
  simp only [Mat.permuteRows]
  rw [sum_Ico_perm p s e hfix' (fun i => ∑ j in range M.n_cols,
    (M.mem i j - (∑ k in Ico s e, M.mem (p k) j) / (((e : Int) - (s : Int) : Int) : ℚ)) *
    (M.mem i j - (∑ k in Ico s e, M.mem (p k) j) / (((e : Int) - (s : Int) : Int) : ℚ)))]
  have hin : ∀ j, ∑ k in Ico s e, M.mem (p k) j = ∑ k in Ico s e, M.mem k j :=
    fun j => sum_Ico_perm p s e hfix' (fun k => M.mem k j)
  simp only [hin]

/-- Witness for C8: rows `1` and `2` of the example matrix are exchanged inside
the segment `[1, 3)`. -/
theorem C8_Eval_permutation_invariant_witness :
    (0 : Int) ≤ 1 ∧ (1 : Int) < 3 ∧ (3 : Int) ≤ (exampleM.n_rows : Int) ∧
    (∀ i : ℕ, ¬((1 : Int) ≤ (i : Int) ∧ (i : Int) < 3) → Equiv.swap 1 2 i = i) ∧
    ∃ c c2 v, Cost.new exampleM = .ok c ∧
      Cost.new (exampleM.permuteRows (Equiv.swap 1 2)) = .ok c2 ∧
      c.Cpp_Eval 1 3 = .ok v ∧ c2.Cpp_Eval 1 3 = .ok v :=
  have hfix : ∀ i : ℕ, ¬((1 : Int) ≤ (i : Int) ∧ (i : Int) < 3) → Equiv.swap 1 2 i = i :=
    fun i hi => Equiv.swap_apply_of_ne_of_ne (by omega) (by omega)
  ⟨by decide, by decide, by decide, hfix,
    C8_Eval_permutation_invariant exampleM 1 3 (Equiv.swap 1 2) (by decide) (by decide)
      (by decide) hfix⟩

/-- C9, counterexample: for `A = [[2^53],[1]]` and `B = [[-2^53],[1]]`, in double
precision, `Cpp_getCumsum(A + B)` is `[[0],[0],[2]]` whereas
`Cpp_getCumsum(A) + Cpp_getCumsum(B)` is `[[0],[0],[1]]`: the running total
`2^53 + 1` of `A` is rounded to `2^53`. -/
theorem C9_counterexample :
    (((Mat.ofRows 1 [[2 ^ 53], [1]]).add64 (Mat.ofRows 1 [[-(2 ^ 53)], [1]]) >>=
        Cpp_getCumsum64).map Mat.toRows).toOption = some [[0], [0], [2]] ∧
      ((do
        let CA ← Cpp_getCumsum64 (Mat.ofRows 1 [[2 ^ 53], [1]])
        let CB ← Cpp_getCumsum64 (Mat.ofRows 1 [[-(2 ^ 53)], [1]])
        let S ← CA.add64 CB
        pure S.toRows : Except Err (List (List ℚ))).toOption) = some [[0], [0], [1]] := by
  decide!

/-- C9, as amended: in exact arithmetic, for two matrices of the same shape, the
cumulative sums of `A + B` are the elementwise sum of the cumulative sums of `A`
and of `B`. -/
theorem C9_getCumsum_linear (A B : Mat) (hr : A.n_rows = B.n_rows) (hc : A.n_cols = B.n_cols) :
    ∃ AB CA CB CAB S, A.add B = .ok AB ∧ Cpp_getCumsum A = .ok CA ∧ Cpp_getCumsum B = .ok CB ∧
      Cpp_getCumsum AB = .ok CAB ∧ CA.add CB = .ok S ∧
      CAB.n_rows = S.n_rows ∧ CAB.n_cols = S.n_cols ∧
      ∀ i, i < S.n_rows → ∀ j, j < S.n_cols → CAB.mem i j = S.mem i j := by
  obtain ⟨CA, hA, rA, cA, pA⟩ := getCumsum_spec A
  obtain ⟨CB, hB, rB, cB, pB⟩ := getCumsum_spec B
  obtain ⟨CAB, hAB, rAB, cAB, pAB⟩ :=
    getCumsum_spec ⟨A.n_rows, A.n_cols, fun i j => A.mem i j + B.mem i j⟩
  have hadd : A.add B = .ok ⟨A.n_rows, A.n_cols, fun i j => A.mem i j + B.mem i j⟩ := by
    simp only [Mat.add, hr, hc, and_self, if_true]
  have hsum : CA.add CB = .ok ⟨CA.n_rows, CA.n_cols, fun i j => CA.mem i j + CB.mem i j⟩ := by
    simp only [Mat.add, rA, rB, cA, cB, hr, hc, and_self, if_true]
  refine ⟨_, CA, CB, CAB, _, hadd, hA, hB, hAB, hsum, ?_, ?_, ?_⟩
  · rw [rAB, rA]
  · rw [cAB, cA]
  · intro i hi j _
    have hi' : i ≤ A.n_rows := by
      simp only [rA] at hi
      omega
    simp only [pAB i hi' j, pA i hi' j, pB i (hr ▸ hi') j, sum_add_distrib]

/-- Witness for C9: the example matrix and its reversal `[[4],[3],[2],[1]]`. -/
theorem C9_getCumsum_linear_witness :
    exampleM.n_rows = (Mat.ofRows 1 [[4], [3], [2], [1]]).n_rows ∧
    exampleM.n_cols = (Mat.ofRows 1 [[4], [3], [2], [1]]).n_cols ∧
    ∃ AB CA CB CAB S, exampleM.add (Mat.ofRows 1 [[4], [3], [2], [1]]) = .ok AB ∧
      Cpp_getCumsum exampleM = .ok CA ∧
      Cpp_getCumsum (Mat.ofRows 1 [[4], [3], [2], [1]]) = .ok CB ∧
      Cpp_getCumsum AB = .ok CAB ∧ CA.add CB = .ok S ∧
      CAB.n_rows = S.n_rows ∧ CAB.n_cols = S.n_cols ∧
      ∀ i, i < S.n_rows → ∀ j, j < S.n_cols → CAB.mem i j = S.mem i j :=
  ⟨rfl, rfl, C9_getCumsum_linear exampleM (Mat.ofRows 1 [[4], [3], [2], [1]]) rfl rfl⟩

/-- C10: for `M = [[1],[2],[3],[4]]` the tables are `CSX = [[0],[1],[3],[6],[10]]`
and `CSXsq = [[0],[1],[5],[14],[30]]`, and both evaluators return `5` on `(0, 4)`
and `1/2` on `(1, 3)`. -/
theorem C10_concrete_example :
    ∃ c, Cost.new exampleM = .ok c ∧
      c.CSX.toRows = [[0], [1], [3], [6], [10]] ∧
      c.CSXsq.toRows = [[0], [1], [5], [14], [30]] ∧
      c.Cpp_effEval 0 4 = .ok (Dbl.fin 5) ∧ c.Cpp_Eval 0 4 = .ok (Dbl.fin 5) ∧
      c.Cpp_effEval 1 3 = .ok (Dbl.fin (1 / 2)) ∧ c.Cpp_Eval 1 3 = .ok (Dbl.fin (1 / 2)) := by
  obtain ⟨c, hc, hX, -, -, r1, c1, p1, r2, c2, p2⟩ := Cost_new_tables exampleM
  have hn : exampleM.n_rows = 4 := rfl
  have hd : exampleM.n_cols = 1 := rfl
  have hr5 : List.range 5 = [0, 1, 2, 3, 4] := rfl
  have hr1 : List.range 1 = [0] := rfl
  have e04 := effEval_value exampleM c 0 4 (by decide) (by decide) (by decide) r1 c1 p1 r2 c2 p2
  have e13 := effEval_value exampleM c 1 3 (by decide) (by decide) (by decide) r1 c1 p1 r2 c2 p2
  have n04 := Cpp_Eval_spec c 0 4 (by decide) (by rw [hX]; decide)
  have n13 := Cpp_Eval_spec c 1 3 (by decide) (by rw [hX]; decide)
  refine ⟨c, hc, ?_, ?_, ?_, ?_, ?_, ?_⟩
  · have h5 : exampleM.n_rows + 1 = 5 := rfl
    rw [Mat.toRows, r1, c1, h5, hd, hr5, hr1]
    simp only [List.map_cons, List.map_nil,
      p1 0 (by decide), p1 1 (by decide), p1 2 (by decide), p1 3 (by decide), p1 4 (by decide),
      sum_range_succ, sum_range_zero, exampleM, Mat.ofRows]
    norm_num
  · have h5 : exampleM.n_rows + 1 = 5 := rfl
    rw [Mat.toRows, r2, c2, h5, hd, hr5, hr1]
    simp only [List.map_cons, List.map_nil,
      p2 0 (by decide), p2 1 (by decide), p2 2 (by decide), p2 3 (by decide), p2 4 (by decide),
      sum_range_succ, sum_range_zero, exampleM, Mat.ofRows]
    norm_num
  · rw [show (0 : Int) = ((0 : Nat) : Int) from rfl, show (4 : Int) = ((4 : Nat) : Int) from rfl,
      e04]
    simp only [exampleM, Mat.ofRows, sum_range_succ, sum_range_zero]
    norm_num
  · rw [show (0 : Int) = ((0 : Nat) : Int) from rfl, show (4 : Int) = ((4 : Nat) : Int) from rfl,
      n04, hX]
    simp only [exampleM, Mat.ofRows, sum_range_succ, sum_range_zero, Nat.Ico_zero_eq_range]
    norm_num
  · rw [show (1 : Int) = ((1 : Nat) : Int) from rfl, show (3 : Int) = ((3 : Nat) : Int) from rfl,
      e13]
    simp only [exampleM, Mat.ofRows, sum_range_succ, sum_range_zero]
    norm_num
  · rw [show (1 : Int) = ((1 : Nat) : Int) from rfl, show (3 : Int) = ((3 : Nat) : Int) from rfl,
      n13, hX]
    have hI : Ico 1 3 = {1, 2} := by decide
    simp only [hI, exampleM, Mat.ofRows, sum_range_succ, sum_range_zero]
    norm_num

/-- C11: the constructor stores the input matrix unchanged, `CSX` is
`Cpp_getCumsum` of the input and `CSXsq` is `Cpp_getCumsum` of its elementwise
square; both tables have `n + 1` rows and `d` columns. -/
theorem C11_constructor (M : Mat) :
    ∃ c, Cost.new M = .ok c ∧ c.X = M ∧
      Cpp_getCumsum M = .ok c.CSX ∧ Cpp_getCumsum (M.pow 2) = .ok c.CSXsq ∧
      (M.pow 2).n_rows = M.n_rows ∧ (M.pow 2).n_cols = M.n_cols ∧
      (∀ i j, (M.pow 2).mem i j = M.mem i j * M.mem i j) ∧
      c.CSX.n_rows = M.n_rows + 1 ∧ c.CSX.n_cols = M.n_cols ∧
      c.CSXsq.n_rows = M.n_rows + 1 ∧ c.CSXsq.n_cols = M.n_cols := by
  obtain ⟨c, hc, hX, h1, h2, r1, c1, -, r2, c2, -⟩ := Cost_new_tables M
  exact ⟨c, hc, hX, h1, h2, rfl, rfl, fun i j => by simp only [Mat.pow, sq], r1, c1, r2, c2⟩

/-- C12: on a matrix with zero rows and `d` columns `Cpp_getCumsum` succeeds and
returns the matrix made of one row of `d` zeros. -/
theorem C12_getCumsum_no_rows (M : Mat) (h : M.n_rows = 0) :
    ∃ CS, Cpp_getCumsum M = .ok CS ∧ CS.n_rows = 1 ∧ CS.n_cols = M.n_cols ∧
      CS.toRows = [List.replicate M.n_cols 0] := by
  obtain ⟨CS, hCS, hr, hc, hp⟩ := getCumsum_spec M
  have hr1 : CS.n_rows = 1 := by rw [hr, h]
  refine ⟨CS, hCS, hr1, hc, ?_⟩
  have h0 : ∀ j, CS.mem 0 j = 0 := fun j => by rw [hp 0 (Nat.zero_le _) j, sum_range_zero]
  have hrow : CS.mem 0 = fun _ => 0 := funext h0
  rw [Mat.toRows, hr1, hc, show List.range 1 = [0] from rfl, List.map_cons, List.map_nil, hrow]
  congr 1
  apply List.ext_get
  · simp
  · intro k h1 h2
    simp

/-- Witness for C12: the matrix with no rows and three columns. -/
theorem C12_getCumsum_no_rows_witness :
    (Mat.zeros 0 3).n_rows = 0 ∧
    ∃ CS, Cpp_getCumsum (Mat.zeros 0 3) = .ok CS ∧ CS.n_rows = 1 ∧
      CS.n_cols = (Mat.zeros 0 3).n_cols ∧
      CS.toRows = [List.replicate (Mat.zeros 0 3).n_cols 0] :=
  ⟨rfl, C12_getCumsum_no_rows (Mat.zeros 0 3) rfl⟩

/-- C13, counterexample: for `M = [[2^53],[1],[1]]` and the segment `(1, 3)`, in
double precision, the row difference `CSX[3] − CSX[1]` is `[0]`, whereas the
column-wise sum of the rows `1` and `2` of `M` is `2`: the table is
`[[0],[2^53],[2^53],[2^53]]`. -/
theorem C13_counterexample :
    ((Cost.new64 (Mat.ofRows 1 [[2 ^ 53], [1], [1]]) >>= fun c => pure c.CSX.toRows :
        Except Err (List (List ℚ))).toOption) =
        some [[0], [2 ^ 53], [2 ^ 53], [2 ^ 53]] ∧
      ((Cost.new64 (Mat.ofRows 1 [[2 ^ 53], [1], [1]]) >>= fun c => c.sumVec64 1 3).map
        RowVec.toList).toOption = some [0] ∧
      ∑ i in Ico 1 3, (Mat.ofRows 1 [[2 ^ 53], [1], [1]]).mem i 0 = 2 := by
  decide!

/-- C13, as amended: in exact arithmetic, for `0 ≤ start ≤ end ≤ n` the row
difference `CSX[end] − CSX[start]` is the column-wise sum of the rows
`start .. end-1` of `M`, and the sum of the entries of `CSXsq[end] − CSXsq[start]`
is the sum of the squares of all entries of those rows. -/
theorem C13_table_differences (M : Mat) (start end_ : Int) (h0 : 0 ≤ start)
    (hse : start ≤ end_) (hen : end_ ≤ (M.n_rows : Int)) :
    ∃ c ce cs dv qe qs dq, Cost.new M = .ok c ∧
      c.CSX.row end_ = .ok ce ∧ c.CSX.row start = .ok cs ∧ ce.sub cs = .ok dv ∧
      dv.n_elem = M.n_cols ∧
      (∀ j, j < M.n_cols → dv.mem j = ∑ i in Ico start.toNat end_.toNat, M.mem i j) ∧
      c.CSXsq.row end_ = .ok qe ∧ c.CSXsq.row start = .ok qs ∧ qe.sub qs = .ok dq ∧
      dq.sum = ∑ i in Ico start.toNat end_.toNat, ∑ j in range M.n_cols, M.mem i j ^ 2 := by
  lift start to ℕ using h0
  lift end_ to ℕ using le_trans (Int.natCast_nonneg start) hse
  have hse' : start ≤ end_ := by exact_mod_cast hse
  have hen' : end_ ≤ M.n_rows := by exact_mod_cast hen
  obtain ⟨c, hc, -, -, -, r1, c1, p1, r2, c2, p2⟩ := Cost_new_tables M
  have b1 : (0 : Int) ≤ (start : Int) ∧ (start : Int) < (c.CSX.n_rows : Int) := by
    constructor <;> omega
  have b2 : (0 : Int) ≤ (end_ : Int) ∧ (end_ : Int) < (c.CSX.n_rows : Int) := by
    constructor <;> omega
  have b3 : (0 : Int) ≤ (start : Int) ∧ (start : Int) < (c.CSXsq.n_rows : Int) := by
    constructor <;> omega
  have b4 : (0 : Int) ≤ (end_ : Int) ∧ (end_ : Int) < (c.CSXsq.n_rows : Int) := by
    constructor <;> omega
  refine ⟨c, _, _, ⟨c.CSX.n_cols, fun j => c.CSX.mem end_ j - c.CSX.mem start j⟩, _, _,
    ⟨c.CSXsq.n_cols, fun j => c.CSXsq.mem end_ j - c.CSXsq.mem start j⟩, hc,
    Mat_row_ok _ _ b2, Mat_row_ok _ _ b1, ?_, c1, ?_,
    Mat_row_ok _ _ b4, Mat_row_ok _ _ b3, ?_, ?_⟩
  · simp only [RowVec.sub, RowVec.zipWith, if_true, Int.toNat_ofNat]
  · intro j _
    simp only [Int.toNat_ofNat]
    rw [p1 end_ hen' j, p1 start (le_trans hse' hen') j, sum_Ico_eq_sub _ hse']
  · simp only [RowVec.sub, RowVec.zipWith, if_true, Int.toNat_ofNat]
  · simp only [RowVec.sum, Int.toNat_ofNat]
    rw [accuTo_sum (fun x => x), c2, sum_comm]
    refine sum_congr rfl (fun j _ => ?_)
    rw [p2 end_ hen' j, p2 start (le_trans hse' hen') j, sum_Ico_eq_sub _ hse']

/-- Witness for C13: the segment `[1, 3)` of the example matrix. -/
theorem C13_table_differences_witness :
    (0 : Int) ≤ 1 ∧ (1 : Int) ≤ 3 ∧ (3 : Int) ≤ (exampleM.n_rows : Int) ∧
    ∃ c ce cs dv qe qs dq, Cost.new exampleM = .ok c ∧
      c.CSX.row 3 = .ok ce ∧ c.CSX.row 1 = .ok cs ∧ ce.sub cs = .ok dv ∧
      dv.n_elem = exampleM.n_cols ∧
      (∀ j, j < exampleM.n_cols →
        dv.mem j = ∑ i in Ico (1 : Int).toNat (3 : Int).toNat, exampleM.mem i j) ∧
      c.CSXsq.row 3 = .ok qe ∧ c.CSXsq.row 1 = .ok qs ∧ qe.sub qs = .ok dq ∧
      dq.sum = ∑ i in Ico (1 : Int).toNat (3 : Int).toNat,
        ∑ j in range exampleM.n_cols, exampleM.mem i j ^ 2 :=
  ⟨by decide, by decide, by decide,
    C13_table_differences exampleM 1 3 (by decide) (by decide) (by decide)⟩

/-- C14: on a valid segment every row access of the two evaluators is within
bounds (rows `start .. end-1` of `X`; rows `start` and `end` of the two tables,
which have `n + 1` rows) and the divisor `end − start` is nonzero, so both
evaluators return a finite value and reach no indexing or division error. -/
theorem C14_valid_segment_safe (M : Mat) (start end_ : Int) (h0 : 0 ≤ start)
    (hse : start < end_) (hen : end_ ≤ (M.n_rows : Int)) :
    ∃ c, Cost.new M = .ok c ∧
      c.CSX.n_rows = M.n_rows + 1 ∧ c.CSXsq.n_rows = M.n_rows + 1 ∧
      (∀ i : Int, start ≤ i → i < end_ → ∃ r, c.X.row i = .ok r) ∧
      (∃ r, c.CSX.row start = .ok r) ∧ (∃ r, c.CSX.row end_ = .ok r) ∧
      (∃ r, c.CSXsq.row start = .ok r) ∧ (∃ r, c.CSXsq.row end_ = .ok r) ∧
      end_ - start ≠ 0 ∧
      (∃ v, c.Cpp_Eval start end_ = .ok (Dbl.fin v)) ∧
      (∃ v, c.Cpp_effEval start end_ = .ok (Dbl.fin v)) := by
  obtain ⟨c, hc, hX, -, -, r1, c1, p1, r2, c2, p2⟩ := Cost_new_tables M
  refine ⟨c, hc, r1, r2, ?_, ⟨_, Mat_row_ok _ _ (by omega)⟩, ⟨_, Mat_row_ok _ _ (by omega)⟩,
    ⟨_, Mat_row_ok _ _ (by omega)⟩, ⟨_, Mat_row_ok _ _ (by omega)⟩, by omega, ?_, ?_⟩
  · intro i hi1 hi2
    exact ⟨_, Mat_row_ok _ _ (by rw [hX]; omega)⟩
  · lift start to ℕ using h0
    lift end_ to ℕ using le_trans (Int.natCast_nonneg start) hse.le
    exact ⟨_, Eval_eq_specNaiveCost c start end_ (by omega) (by rw [hX]; omega)⟩
  · lift start to ℕ using h0
    lift end_ to ℕ using le_trans (Int.natCast_nonneg start) hse.le
    exact ⟨_, effEval_eq_specNaiveCost M c start end_ (by omega) (by omega) r1 c1 p1 r2 c2 p2⟩

/-- Witness for C14: the segment `[0, 4)` of the example matrix. -/
theorem C14_valid_segment_safe_witness :
    (0 : Int) ≤ 0 ∧ (0 : Int) < 4 ∧ (4 : Int) ≤ (exampleM.n_rows : Int) ∧
    ∃ c, Cost.new exampleM = .ok c ∧
      c.CSX.n_rows = exampleM.n_rows + 1 ∧ c.CSXsq.n_rows = exampleM.n_rows + 1 ∧
      (∀ i : Int, 0 ≤ i → i < 4 → ∃ r, c.X.row i = .ok r) ∧
      (∃ r, c.CSX.row 0 = .ok r) ∧ (∃ r, c.CSX.row 4 = .ok r) ∧
      (∃ r, c.CSXsq.row 0 = .ok r) ∧ (∃ r, c.CSXsq.row 4 = .ok r) ∧
      (4 : Int) - 0 ≠ 0 ∧
      (∃ v, c.Cpp_Eval 0 4 = .ok (Dbl.fin v)) ∧
      (∃ v, c.Cpp_effEval 0 4 = .ok (Dbl.fin v)) :=
  ⟨by decide, by decide, by decide,
    C14_valid_segment_safe exampleM 0 4 (by decide) (by decide) (by decide)⟩

/-- C15: on every valid segment both evaluators return a non-negative value. -/
theorem C15_cost_nonneg (M : Mat) (s e : Int) (hs : 0 ≤ s) (hse : s < e)
    (hen : e ≤ (M.n_rows : Int)) :
    ∃ c v w, Cost.new M = .ok c ∧ c.Cpp_Eval s e = .ok (Dbl.fin v) ∧ 0 ≤ v ∧
      c.Cpp_effEval s e = .ok (Dbl.fin w) ∧ 0 ≤ w := by
  lift s to ℕ using hs
  lift e to ℕ using le_trans (Int.natCast_nonneg s) hse.le
  have hse' : s < e := by exact_mod_cast hse
  have hen' : e ≤ M.n_rows := by exact_mod_cast hen
  obtain ⟨c, hc, hX, -, -, r1, c1, p1, r2, c2, p2⟩ := Cost_new_tables M
  exact ⟨c, _, _, hc, Eval_eq_specNaiveCost c s e hse' (by rw [hX]; exact hen'),
    specNaiveCost_nonneg _ _ _,
    effEval_eq_specNaiveCost M c s e hse' hen' r1 c1 p1 r2 c2 p2, specNaiveCost_nonneg _ _ _⟩

/-- Witness for C15: the segment `[1, 3)` of the example matrix. -/
theorem C15_cost_nonneg_witness :
    (0 : Int) ≤ 1 ∧ (1 : Int) < 3 ∧ (3 : Int) ≤ (exampleM.n_rows : Int) ∧
    ∃ c v w, Cost.new exampleM = .ok c ∧ c.Cpp_Eval 1 3 = .ok (Dbl.fin v) ∧ 0 ≤ v ∧
      c.Cpp_effEval 1 3 = .ok (Dbl.fin w) ∧ 0 ≤ w :=
  ⟨by decide, by decide, by decide,
    C15_cost_nonneg exampleM 1 3 (by decide) (by decide) (by decide)⟩

/-- C16: splitting a segment at an interior point never increases the total
cost of the efficient evaluator. -/
theorem C16_split_le (M : Mat) (s m e : Int) (hs : 0 ≤ s) (hsm : s < m) (hme : m < e)
    (hen : e ≤ (M.n_rows : Int)) :
    ∃ c v1 v2 v, Cost.new M = .ok c ∧ c.Cpp_effEval s m = .ok (Dbl.fin v1) ∧
      c.Cpp_effEval m e = .ok (Dbl.fin v2) ∧ c.Cpp_effEval s e = .ok (Dbl.fin v) ∧
      v1 + v2 ≤ v := by
  lift s to ℕ using hs
  lift m to ℕ using le_trans (Int.natCast_nonneg s) hsm.le
  lift e to ℕ using le_trans (Int.natCast_nonneg m) hme.le
  have hsm' : s < m := by exact_mod_cast hsm
  have hme' : m < e := by exact_mod_cast hme
  have hen' : e ≤ M.n_rows := by exact_mod_cast hen
  obtain ⟨c, hc, -, -, -, r1, c1, p1, r2, c2, p2⟩ := Cost_new_tables M
  refine ⟨c, _, _, _, hc,
    effEval_value M c s m (by omega) (by omega) (by omega) r1 c1 p1 r2 c2 p2,
    effEval_value M c m e (by omega) (by omega) (by omega) r1 c1 p1 r2 c2 p2,
    effEval_value M c s e (by omega) (by omega) (by omega) r1 c1 p1 r2 c2 p2, ?_⟩
  have hp : (0 : ℚ) < (m : ℚ) - s := by
    have : (s : ℚ) < m := by exact_mod_cast hsm'
    linarith
  have hq : (0 : ℚ) < (e : ℚ) - m := by
    have : (m : ℚ) < e := by exact_mod_cast hme'
    linarith
  have key := split_sum_le
    (fun j => ∑ i in range m, M.mem i j - ∑ i in range s, M.mem i j)
    (fun j => ∑ i in range e, M.mem i j - ∑ i in range m, M.mem i j)
    M.n_cols _ _ hp hq
  have hL : (m : ℚ) - s + ((e : ℚ) - m) = (e : ℚ) - s := by ring
  have hAB : ∀ j, (∑ i in range m, M.mem i j - ∑ i in range s, M.mem i j) +
      (∑ i in range e, M.mem i j - ∑ i in range m, M.mem i j) =
      ∑ i in range e, M.mem i j - ∑ i in range s, M.mem i j := fun j => by ring
  simp only [hL, hAB] at key
  have hQ : ∑ j in range M.n_cols,
        (∑ i in range m, M.mem i j ^ 2 - ∑ i in range s, M.mem i j ^ 2) +
      ∑ j in range M.n_cols,
        (∑ i in range e, M.mem i j ^ 2 - ∑ i in range m, M.mem i j ^ 2) =
      ∑ j in range M.n_cols,
        (∑ i in range e, M.mem i j ^ 2 - ∑ i in range s, M.mem i j ^ 2) := by
    rw [← sum_add_distrib]
    exact sum_congr rfl fun j _ => by ring
  linarith

/-- Witness for C16: the example matrix split at row `2`. -/
theorem C16_split_le_witness :
    (0 : Int) ≤ 0 ∧ (0 : Int) < 2 ∧ (2 : Int) < 4 ∧ (4 : Int) ≤ (exampleM.n_rows : Int) ∧
    ∃ c v1 v2 v, Cost.new exampleM = .ok c ∧ c.Cpp_effEval 0 2 = .ok (Dbl.fin v1) ∧
      c.Cpp_effEval 2 4 = .ok (Dbl.fin v2) ∧ c.Cpp_effEval 0 4 = .ok (Dbl.fin v) ∧
      v1 + v2 ≤ v :=
  ⟨by decide, by decide, by decide, by decide,
    C16_split_le exampleM 0 2 4 (by decide) (by decide) (by decide) (by decide)⟩

/-- C17: adding one and the same vector to every row of the matrix changes the
value of neither evaluator on a valid segment. -/
theorem C17_translation_invariant (M : Mat) (v : RowVec ℚ) (s e : Int) (hs : 0 ≤ s)
    (hse : s < e) (hen : e ≤ (M.n_rows : Int)) :
    ∃ c c2 x y, Cost.new M = .ok c ∧ Cost.new (M.shiftRows v) = .ok c2 ∧
      c.Cpp_effEval s e = .ok (Dbl.fin x) ∧ c2.Cpp_effEval s e = .ok (Dbl.fin x) ∧
      c.Cpp_Eval s e = .ok (Dbl.fin y) ∧ c2.Cpp_Eval s e = .ok (Dbl.fin y) := by
  lift s to ℕ using hs
  lift e to ℕ using le_trans (Int.natCast_nonneg s) hse.le
  have hse' : s < e := by exact_mod_cast hse
  have hen' : e ≤ M.n_rows := by exact_mod_cast hen
  obtain ⟨c, hc, hX, -, -, r1, c1, p1, r2, c2, p2⟩ := Cost_new_tables M
  obtain ⟨d, hd, hY, -, -, t1, d1, q1, t2, d2, q2⟩ := Cost_new_tables (M.shiftRows v)
  refine ⟨c, d, specNaiveCost M s e, specNaiveCost M s e, hc, hd,
    effEval_eq_specNaiveCost M c s e hse' hen' r1 c1 p1 r2 c2 p2, ?_, ?_, ?_⟩
  · rw [← specNaiveCost_shift M v s e hse']
    exact effEval_eq_specNaiveCost (M.shiftRows v) d s e hse' hen' t1 d1 q1 t2 d2 q2
  · rw [← hX]
    exact Eval_eq_specNaiveCost c s e hse' (by rw [hX]; exact hen')
  · rw [← specNaiveCost_shift M v s e hse', ← hY]
    exact Eval_eq_specNaiveCost d s e hse' (by rw [hY]; exact hen')

/-- Witness for C17: the example matrix shifted by `7`, on the segment `[1, 4)`. -/
theorem C17_translation_invariant_witness :
    (0 : Int) ≤ 1 ∧ (1 : Int) < 4 ∧ (4 : Int) ≤ (exampleM.n_rows : Int) ∧
    ∃ c c2 x y, Cost.new exampleM = .ok c ∧
      Cost.new (exampleM.shiftRows ⟨1, fun _ => 7⟩) = .ok c2 ∧
      c.Cpp_effEval 1 4 = .ok (Dbl.fin x) ∧ c2.Cpp_effEval 1 4 = .ok (Dbl.fin x) ∧
      c.Cpp_Eval 1 4 = .ok (Dbl.fin y) ∧ c2.Cpp_Eval 1 4 = .ok (Dbl.fin y) :=
  ⟨by decide, by decide, by decide,
    C17_translation_invariant exampleM ⟨1, fun _ => 7⟩ 1 4 (by decide) (by decide) (by decide)⟩

/-- C18: on a valid segment the brute-force evaluator returns `0` exactly when
all the rows of the segment are equal to one another. -/
theorem C18_Eval_zero_iff (M : Mat) (s e : Int) (hs : 0 ≤ s) (hse : s < e)
    (hen : e ≤ (M.n_rows : Int)) :
    ∃ c v, Cost.new M = .ok c ∧ c.Cpp_Eval s e = .ok (Dbl.fin v) ∧
      (v = 0 ↔ ∀ i k : ℕ, s ≤ (i : Int) → (i : Int) < e → s ≤ (k : Int) → (k : Int) < e →
        ∀ j, j < M.n_cols → M.mem i j = M.mem k j) := by
  lift s to ℕ using hs
  lift e to ℕ using le_trans (Int.natCast_nonneg s) hse.le
  have hse' : s < e := by exact_mod_cast hse
  have hen' : e ≤ M.n_rows := by exact_mod_cast hen
  obtain ⟨c, hc, hX, -⟩ := Cost_new_tables M
  refine ⟨c, specNaiveCost M s e, hc, ?_, ?_⟩
  · rw [← hX]
    exact Eval_eq_specNaiveCost c s e hse' (by rw [hX]; exact hen')
  · rw [specNaiveCost_eq_zero_iff M s e hse']
    constructor
    · intro h i k h1 h2 h3 h4
      exact h i k (by omega) (by omega) (by omega) (by omega)
    · intro h i k h1 h2 h3 h4
      exact h i k (by omega) (by omega) (by omega) (by omega)

/-- Witness for C18: the segment `[0, 2)` of the example matrix. -/
theorem C18_Eval_zero_iff_witness :
    (0 : Int) ≤ 0 ∧ (0 : Int) < 2 ∧ (2 : Int) ≤ (exampleM.n_rows : Int) ∧
    ∃ c v, Cost.new exampleM = .ok c ∧ c.Cpp_Eval 0 2 = .ok (Dbl.fin v) ∧
      (v = 0 ↔ ∀ i k : ℕ, (0 : Int) ≤ (i : Int) → (i : Int) < 2 → (0 : Int) ≤ (k : Int) →
        (k : Int) < 2 → ∀ j, j < exampleM.n_cols → exampleM.mem i j = exampleM.mem k j) :=
  ⟨by decide, by decide, by decide,
    C18_Eval_zero_iff exampleM 0 2 (by decide) (by decide) (by decide)⟩

/-- C19: with `start ≥ end` the brute-force evaluator runs zero iterations of
each loop, whatever the loop body, so it reads no row of `X`, and it returns `0`
without an error, for every matrix and both tables whatsoever. -/
theorem C19_Eval_empty_segment (c : Cost) (start end_ : Int) (h : end_ ≤ start) :
    (end_ - start).toNat = 0 ∧
    (∀ (body : Int → RowVec ℚ → Except Err (RowVec ℚ)) (init : RowVec ℚ),
      forRange start end_ body init = .ok init) ∧
    (∀ (body : Int → Dbl → Except Err Dbl) (init : Dbl),
      forRange start end_ body init = .ok init) ∧
    c.Cpp_Eval start end_ = .ok (Dbl.fin 0) :=
  ⟨by omega, fun body init => forRange_empty start end_ body init h,
    fun body init => forRange_empty start end_ body init h, Cpp_Eval_empty c start end_ h⟩

/-- Witness for C19: the bounds `(3, 1)` on a `Cost` object whose matrix has no
rows at all. -/
theorem C19_Eval_empty_segment_witness :
    (1 : Int) ≤ 3 ∧ ((1 : Int) - 3).toNat = 0 ∧
    (∀ (body : Int → RowVec ℚ → Except Err (RowVec ℚ)) (init : RowVec ℚ),
      forRange 3 1 body init = .ok init) ∧
    (∀ (body : Int → Dbl → Except Err Dbl) (init : Dbl),
      forRange 3 1 body init = .ok init) ∧
    (Cost.mk (Mat.zeros 0 1) (Mat.zeros 1 1) (Mat.zeros 1 1)).Cpp_Eval 3 1 = .ok (Dbl.fin 0) :=
  ⟨by decide, C19_Eval_empty_segment ⟨Mat.zeros 0 1, Mat.zeros 1 1, Mat.zeros 1 1⟩ 3 1
    (by decide)⟩

end Ruptures
